import Mathlib

/-!
Verification of the rc5 repository: a generalized RC5 block cipher over words
that are fixed-length little-endian byte arrays.  The definitions below are a
shallow embedding of `src/bytes.rs`, `src/consts.rs` and `src/rc5.rs`:
`[u8; N]` arrays become `List Nat` whose entries are `< 256`, `u8`/`u16`/`u128`
arithmetic becomes `Nat`/`Int` arithmetic with explicit `% 2^w` where the
machine width matters, and the fallible `to_u128` conversion becomes `Option`.
-/

namespace RC5

/-- A Word models a `[u8; N]` array: a little-endian list of byte values. -/
abbrev Word := List Nat

/-- The invariant carried by every `[u8; N]` value: each entry fits in a byte. -/
def IsBytes (w : Word) : Prop := ∀ x ∈ w, x < 256

instance decIsBytes (w : Word) : Decidable (IsBytes w) := List.decidableBAll _ w

/-- Embeds `<[u8; N]>::from_slice` (src/bytes.rs): copy up to `N` bytes from
the slice, truncating excess and zero-padding shortfall. -/
def from_slice (N : Nat) (s : List Nat) : Word :=
  s.take N ++ List.replicate (N - s.length) 0

/-- Embeds `bitxor` (src/bytes.rs): byte-wise XOR of two equal-length arrays. -/
def bitxor (a b : Word) : Word := List.zipWith (fun x y => x ^^^ y) a b

/-- The carry loop of `wrapping_add` (src/bytes.rs): `temp_sum` is the `u16`
sum of the two bytes plus the carry, the output byte is `temp_sum as u8` and
the next carry is `temp_sum >> 8 > 0`. -/
def wrapping_add_aux : Word → Word → Bool → Word
  | x :: xs, y :: ys, carry =>
      let temp_sum := x + y + (if carry then 1 else 0)
      temp_sum % 256 :: wrapping_add_aux xs ys (decide (temp_sum >>> 8 > 0))
  | _, _, _ => []

/-- Embeds `wrapping_add` (src/bytes.rs), starting with no carry. -/
def wrapping_add (a b : Word) : Word := wrapping_add_aux a b false

/-- The borrow loop of `wrapping_sub` (src/bytes.rs): `temp_diff` is the `i16`
difference minus the borrow; if negative, `256` is added back and the borrow
propagates; the output byte is `temp_diff as u8` (i.e. `emod 256`). -/
def wrapping_sub_aux : Word → Word → Bool → Word
  | x :: xs, y :: ys, borrow =>
      let temp_diff : Int := (x : Int) - (y : Int) - (if borrow then 1 else 0)
      let borrow2 := decide (temp_diff < 0)
      let temp_diff2 := if borrow2 then temp_diff + 256 else temp_diff
      (temp_diff2 % 256).toNat :: wrapping_sub_aux xs ys borrow2
  | _, _, _ => []

/-- Embeds `wrapping_sub` (src/bytes.rs), starting with no borrow. -/
def wrapping_sub (a b : Word) : Word := wrapping_sub_aux a b false

/-- Semantic embedding of `u128::is_power_of_two`: true exactly when the value
is a power of two (`count_ones() == 1` in the Rust source); see
`is_power_of_two_iff`.  Any exponent can be bounded by the value itself. -/
def is_power_of_two (x : Nat) : Bool := (List.range (x + 1)).any fun k => x == 2 ^ k

/-- Doubling loop computing the smallest power of two that is at least `x`,
with enough fuel to terminate structurally. -/
def npt_go (x : Nat) : Nat → Nat → Nat
  | 0, acc => acc
  | fuel + 1, acc => if acc < x then npt_go x fuel (acc * 2) else acc

/-- Semantic embedding of `u128::next_power_of_two`: the smallest power of two
greater than or equal to the argument (`1` for `0`); see
`next_power_of_two_correct`. -/
def next_power_of_two (x : Nat) : Nat := npt_go x x 1

/-- The normalization modulus computed at the top of `rotate` (src/bytes.rs):
`num_bits` itself when it is a power of two, otherwise
`next_power_of_two(num_bits) >> 1`. -/
def rotate_modulus (num_bits : Nat) : Nat :=
  if is_power_of_two num_bits then num_bits else next_power_of_two num_bits >>> 1

/-- Embeds `rotate_left_dest_bit_idx` (src/bytes.rs). -/
def rotate_left_dest_bit_idx (n i num_bits : Nat) : Nat := (i + n) % num_bits

/-- Embeds `rotate_right_dest_bit_idx` (src/bytes.rs). -/
def rotate_right_dest_bit_idx (n i num_bits : Nat) : Nat :=
  if n > i then num_bits - (n - i) else i - n

/-- One iteration of the bit-moving loop in `rotate` (src/bytes.rs): extract
`value[src_byte_idx] >> src_bit_shift`, shift it to the destination bit
position (a `u8` shift, hence the `% 256`), and OR it into the destination
byte of the output. -/
def write_bit (value : Word) (get_dest_bit_idx : Nat → Nat → Nat → Nat)
    (n_normalized num_bits : Nat) (output : Word) (idx : Nat) : Word :=
  let dest_bit_idx := get_dest_bit_idx n_normalized idx num_bits
  let dest_byte_idx := dest_bit_idx / 8
  let dest_bit_shift := dest_bit_idx % 8
  let src_byte_idx := idx / 8
  let src_bit_shift := idx % 8
  let src_bit := value.getD src_byte_idx 0 >>> src_bit_shift
  output.set dest_byte_idx
    (output.getD dest_byte_idx 0 ||| (src_bit <<< dest_bit_shift) % 256)

/-- Embeds `rotate` (src/bytes.rs): normalize the amount, return the input
unchanged when the normalized amount is zero, otherwise move every bit of the
input to its destination position in a zero-initialized output. -/
def rotate (value : Word) (n : Nat) (get_dest_bit_idx : Nat → Nat → Nat → Nat) : Word :=
  let num_bytes := value.length
  let num_bits := num_bytes * 8
  let n_normalized := n % rotate_modulus num_bits
  if n_normalized = 0 then value
  else
    (List.range num_bits).foldl (write_bit value get_dest_bit_idx n_normalized num_bits)
      (List.replicate num_bytes 0)

/-- Embeds `rotate_left` (src/bytes.rs). -/
def rotate_left (value : Word) (n : Nat) : Word := rotate value n rotate_left_dest_bit_idx

/-- Embeds `rotate_right` (src/bytes.rs). -/
def rotate_right (value : Word) (n : Nat) : Word := rotate value n rotate_right_dest_bit_idx

/-- The little-endian unsigned-integer value of a byte array. -/
def toInt : Word → Nat
  | [] => 0
  | x :: xs => x + 256 * toInt xs

/-- Embeds `u128::from_le_bytes(<[u8; 16]>::from_slice(&w))` as used in
src/rc5.rs: the word is zero-extended/truncated to 16 bytes and read as a
little-endian unsigned integer. -/
def to_u128_word (w : Word) : Nat := toInt (from_slice 16 w)

/-! ### src/consts.rs: the magic constants P and Q -/

/-- Embeds `factorial` (src/consts.rs): `result *= idx` for `idx` in `1..=n`. -/
def factorial (n : Nat) : Nat := (List.range n).foldl (fun result idx => result * (idx + 1)) 1

/-- Embeds `approximate_e` (src/consts.rs): the exact rational partial sum of
`1/idx!` for `idx` in `0..terms`. -/
def approximate_e (terms : Nat) : ℚ :=
  (List.range terms).foldl (fun e idx => e + 1 / (factorial idx : ℚ)) 0

/-- Embeds `approximate_golden_ratio` (src/consts.rs): `terms` iterations of
`phi := 1 / (1 + phi)` starting from `0`, plus `1`. -/
def approximate_golden_ratio (terms : Nat) : ℚ :=
  (List.range terms).foldl (fun phi _ => 1 / (1 + phi)) 0 + 1

/-- Embeds `BigRational::to_integer`: the rational truncated toward zero
(num-rational computes `trunc`, i.e. `numer / denom` in T-division). -/
def rat_to_integer (x : ℚ) : Int := x.num / (x.den : Int)

/-- Embeds `BigRational::to_u128`: `some` of the truncated value when it is
representable as an unsigned 128-bit integer, `none` otherwise.  The `expect`
calls in src/consts.rs panic exactly on the `none` case. -/
def rat_to_u128 (x : ℚ) : Option Nat :=
  let t := rat_to_integer x
  if 0 ≤ t ∧ t < 2 ^ 128 then some t.toNat else none

/-- Embeds `odd` (src/consts.rs): force the value odd by adding one when even. -/
def odd (value : Nat) : Nat := if value % 2 == 0 then value + 1 else value

/-- Embeds `u128::to_le_bytes`: the 16 little-endian bytes of the value. -/
def to_le_bytes (v : Nat) : List Nat := (List.range 16).map fun i => v / 256 ^ i % 256

/-- Embeds `p` (src/consts.rs): `odd` of the truncated `(e - 2) * 2^WBIT`
(with `e` the 34-term rational series), emitted as `WBYTE` little-endian
bytes; `none` models the `expect` panic when the value does not fit `u128`. -/
def p (WBIT WBYTE : Nat) : Option Word :=
  (rat_to_u128 ((approximate_e 34 - 2) * 2 ^ WBIT)).map fun result =>
    from_slice WBYTE (to_le_bytes (odd result))

/-- Embeds `q` (src/consts.rs): `odd` of the truncated `(phi - 1) * 2^WBIT`
(with `phi` the 93-iteration golden-ratio approximation), emitted as `WBYTE`
little-endian bytes; `none` models the `expect` panic. -/
def q (WBIT WBYTE : Nat) : Option Word :=
  (rat_to_u128 ((approximate_golden_ratio 93 - 1) * 2 ^ WBIT)).map fun result =>
    from_slice WBYTE (to_le_bytes (odd result))

/-! ### src/rc5.rs: key schedule and cipher core

The const generics `WORD_BIT_SIZE`, `WORD_SIZE`, `EXPANDED_KEY_TABLE_LEN` and
`KEY_AS_WORDS_LEN` become explicit `Nat` parameters `WBIT`, `L`, `T` and `KAW`;
`KEY_SIZE` is the length of the key list.  Array indexing uses `getD` with the
zero word as default; under the derived-parameter consistency assumptions of
the public API every access is in range, so the default is never consulted. -/

/-- The zero word `[0; WORD_SIZE]`. -/
def zeroWord (L : Nat) : Word := List.replicate L 0

/-- The first loop of `expand_key` (src/rc5.rs): pack the key bytes into the
`key_as_words` array, iterating the byte indices from last to first and
folding each byte in with `rotate_left 8` followed by `wrapping_add`. -/
def key_as_words_init (L KAW : Nat) (key : List Nat) : List Word :=
  (List.range key.length).reverse.foldl
    (fun kw idx =>
      let key_word := kw.getD (idx / L) (zeroWord L)
      kw.set (idx / L)
        (wrapping_add (rotate_left key_word 8) (from_slice L [key.getD idx 0])))
    (List.replicate KAW (zeroWord L))

/-- The tail of the second loop of `expand_key` (src/rc5.rs): each table entry
is the previous one plus `q`. -/
def expanded_key_table_tail (qw prev : Word) : Nat → List Word
  | 0 => []
  | k + 1 =>
      let next := wrapping_add prev qw
      next :: expanded_key_table_tail qw next k

/-- The second phase of `expand_key` (src/rc5.rs): `table[0] = p`, then
`table[idx] = table[idx-1].wrapping_add(q)` for the remaining indices. -/
def expanded_key_table_init (T : Nat) (pw qw : Word) : List Word :=
  if T = 0 then [] else pw :: expanded_key_table_tail qw pw (T - 1)

/-- The mutable state of the mixing loop in `expand_key` (src/rc5.rs). -/
structure MixState where
  table : List Word
  key_words : List Word
  expanded_key_word_idx : Nat
  key_word_idx : Nat
  last_expanded_key_word : Word
  last_key_word : Word

/-- One iteration of the mixing loop of `expand_key` (src/rc5.rs). -/
def mix_step (L : Nat) (st : MixState) : MixState :=
  let expanded_key_word :=
    rotate_left
      (wrapping_add (wrapping_add (st.table.getD st.expanded_key_word_idx (zeroWord L))
        st.last_expanded_key_word) st.last_key_word) 3
  let table := st.table.set st.expanded_key_word_idx expanded_key_word
  let key_word :=
    rotate_left
      (wrapping_add (wrapping_add (st.key_words.getD st.key_word_idx (zeroWord L))
        expanded_key_word) st.last_key_word)
      (to_u128_word (wrapping_add expanded_key_word st.last_key_word))
  let key_words := st.key_words.set st.key_word_idx key_word
  { table := table
    key_words := key_words
    expanded_key_word_idx := (st.expanded_key_word_idx + 1) % table.length
    key_word_idx := (st.key_word_idx + 1) % key_words.length
    last_expanded_key_word := expanded_key_word
    last_key_word := key_word }

/-- The mixing loop of `expand_key` (src/rc5.rs), iterated `count` times. -/
def mix_loop (L : Nat) : Nat → MixState → MixState
  | 0, st => st
  | k + 1, st => mix_loop L k (mix_step L st)

/-- Embeds `expand_key` (src/rc5.rs): derive `p` and `q`, pack the key into
words, seed the expanded key table, and run `3 * max KAW T` mixing
iterations.  The result is `none` exactly when a magic constant cannot be
represented (the `expect` panic inside `p`/`q`). -/
def expand_key (WBIT L KAW T : Nat) (key : List Nat) : Option (List Word) :=
  (p WBIT L).bind fun pw =>
  (q WBIT L).bind fun qw =>
    let key_words := key_as_words_init L KAW key
    let table := expanded_key_table_init T pw qw
    let final := mix_loop L (3 * max KAW T)
      { table := table
        key_words := key_words
        expanded_key_word_idx := 0
        key_word_idx := 0
        last_expanded_key_word := zeroWord L
        last_key_word := zeroWord L }
    some final.table

/-- Embeds `RC5::new` (src/rc5.rs): the instance is just the expanded key
table produced by `expand_key`. -/
def new (WBIT L KAW T : Nat) (key : List Nat) : Option (List Word) :=
  expand_key WBIT L KAW T key

/-- One iteration of the encryption round loop (src/rc5.rs). -/
def enc_round (L : Nat) (table : List Word) (idx : Nat) : Word × Word → Word × Word
  | (a, b) =>
      let a2 := wrapping_add
        (rotate_left (bitxor a b) (to_u128_word b))
        (table.getD (2 * idx) (zeroWord L))
      let b2 := wrapping_add
        (rotate_left (bitxor b a2) (to_u128_word a2))
        (table.getD (2 * idx + 1) (zeroWord L))
      (a2, b2)

/-- The rounds `1..=r` of `encrypt` (src/rc5.rs), in increasing order. -/
def enc_rounds (L : Nat) (table : List Word) : Nat → Word × Word → Word × Word
  | 0, ab => ab
  | r + 1, ab => enc_round L table (r + 1) (enc_rounds L table r ab)

/-- Embeds `RC5::encrypt` (src/rc5.rs): split the block at `WORD_SIZE`, add
the first two subkeys, run the rounds, and concatenate the halves. -/
def encrypt (L R : Nat) (table : List Word) (plaintext : List Nat) : List Nat :=
  let a := wrapping_add (plaintext.take L) (table.getD 0 (zeroWord L))
  let b := wrapping_add (plaintext.drop L) (table.getD 1 (zeroWord L))
  let ab := enc_rounds L table R (a, b)
  ab.1 ++ ab.2

/-- One iteration of the decryption round loop (src/rc5.rs). -/
def dec_round (L : Nat) (table : List Word) (idx : Nat) : Word × Word → Word × Word
  | (a, b) =>
      let b2 := bitxor
        (rotate_right (wrapping_sub b (table.getD (2 * idx + 1) (zeroWord L)))
          (to_u128_word a)) a
      let a2 := bitxor
        (rotate_right (wrapping_sub a (table.getD (2 * idx) (zeroWord L)))
          (to_u128_word b2)) b2
      (a2, b2)

/-- The rounds `R..=1` of `decrypt` (src/rc5.rs), in decreasing order. -/
def dec_rounds (L : Nat) (table : List Word) : Nat → Word × Word → Word × Word
  | 0, ab => ab
  | r + 1, ab => dec_rounds L table r (dec_round L table (r + 1) ab)

/-- Embeds `RC5::decrypt` (src/rc5.rs): split the block, undo the rounds in
reverse order, subtract the first two subkeys, and concatenate the halves. -/
def decrypt (L R : Nat) (table : List Word) (ciphertext : List Nat) : List Nat :=
  let ab := dec_rounds L table R (ciphertext.take L, ciphertext.drop L)
  let b := wrapping_sub ab.2 (table.getD 1 (zeroWord L))
  let a := wrapping_sub ab.1 (table.getD 0 (zeroWord L))
  a ++ b

/-! ### Spec-side definitions used to state the claims -/

/-- Bit `j` of a Word in global little-endian bit numbering: bit `j % 8` of
byte `j / 8`. -/
def wTestBit (w : Word) (j : Nat) : Bool := Nat.testBit (w.getD (j / 8) 0) (j % 8)

/-- Bitwise OR of a list of naturals (used to decompose the OR-accumulation
loop of `rotate`). -/
def orList : List Nat → Nat
  | [] => 0
  | x :: xs => x ||| orList xs

/-- The value OR-ed into output byte `d` by iteration `i` of the `rotate`
loop (zero when the iteration targets a different byte). -/
def contrib (value : Word) (g : Nat → Nat → Nat → Nat) (n_normalized num_bits d i : Nat) : Nat :=
  if g n_normalized i num_bits / 8 = d
  then ((value.getD (i / 8) 0 >>> (i % 8)) <<< (g n_normalized i num_bits % 8)) % 256
  else 0

/-- The byte whose little-endian bits are the given list. -/
def bitsVal : List Bool → Nat
  | [] => 0
  | b :: bs => (if b then 1 else 0) + 2 * bitsVal bs

/-- Modelled from the claim: the naive one-bit-at-a-time reference rotation.
Output bit `j` is input bit `(j - D) mod totalBits`, written here in `Nat`
arithmetic as `(j + (totalBits - D)) % totalBits`; each output byte is
assembled from its eight bits. -/
def ref_rotate (v : Word) (D : Nat) : Word :=
  (List.range v.length).map fun d =>
    bitsVal ((List.range 8).map fun s =>
      wTestBit v ((8 * d + s + (v.length * 8 - D)) % (v.length * 8)))

/-- Direct emission of `len` little-endian bytes of a value (used by the
spec-side constant definitions). -/
def le_bytes (len v : Nat) : Word := (List.range len).map fun i => v / 256 ^ i % 256

/-- Modelled from the spec sentence of C6: `P = odd(round((e - 2) * 2^W))`
with `e` the exact 34-term rational partial sum, emitted as `W/8`
little-endian bytes.  `round` is rounding to the nearest integer. -/
def p_spec_round (W : Nat) : Word :=
  le_bytes (W / 8) (odd (round ((approximate_e 34 - 2) * 2 ^ W)).toNat)

/-- The amended spec-side constant: `P = odd(trunc((e - 2) * 2^W))`, the
rational truncated toward zero (equivalently its floor, the value being
nonnegative), emitted as `W/8` little-endian bytes. -/
def p_spec_trunc (W : Nat) : Word :=
  le_bytes (W / 8) (odd (⌊(approximate_e 34 - 2) * 2 ^ W⌋).toNat)

/-- The word bit sizes supported by the implementation: multiples of 8 whose
magic constants fit an unsigned 128-bit integer. -/
def supported_word_bit_sizes : List Nat :=
  [8, 16, 24, 32, 40, 48, 56, 64, 72, 80, 88, 96, 104, 112, 120, 128]

/-- A well-formed word of the configured byte length `L`. -/
def GoodWord (L : Nat) (w : Word) : Prop := w.length = L ∧ IsBytes w

/-! ### Arithmetic lemmas about `toInt`, `wrapping_add` and `wrapping_sub` -/

theorem toInt_lt {w : Word} (hw : IsBytes w) : toInt w < 2 ^ (8 * w.length) := by
  induction w with
  | nil => simp [toInt]
  | cons x xs ih =>
      have hx : x < 256 := hw x (List.mem_cons_self x xs)
      have hxs : toInt xs < 2 ^ (8 * xs.length) := ih fun y hy => hw y (List.mem_cons_of_mem x hy)
      have hpow : 2 ^ (8 * (x :: xs).length) = 256 * 2 ^ (8 * xs.length) := by
        simp [List.length_cons, Nat.mul_add, Nat.mul_succ, pow_add, pow_succ]
        ring
      rw [hpow]
      simp only [toInt]
      omega

theorem length_wrapping_add_aux (a b : Word) (c : Bool) :
    (wrapping_add_aux a b c).length = min a.length b.length := by
  induction a generalizing b c with
  | nil => cases b <;> simp [wrapping_add_aux]
  | cons x xs ih =>
      cases b with
      | nil => simp [wrapping_add_aux]
      | cons y ys => simp [wrapping_add_aux, ih, Nat.succ_min_succ]

theorem length_wrapping_add (a b : Word) : (wrapping_add a b).length = min a.length b.length :=
  length_wrapping_add_aux a b false

theorem isBytes_wrapping_add_aux (a b : Word) (c : Bool) : IsBytes (wrapping_add_aux a b c) := by
  induction a generalizing b c with
  | nil => cases b <;> simp [wrapping_add_aux, IsBytes]
  | cons x xs ih =>
      cases b with
      | nil => simp [wrapping_add_aux, IsBytes]
      | cons y ys =>
          intro z hz
          simp only [wrapping_add_aux, List.mem_cons] at hz
          rcases hz with hz | hz
          · subst hz; exact Nat.mod_lt _ (by norm_num)
          · exact ih ys _ z hz

theorem isBytes_wrapping_add (a b : Word) : IsBytes (wrapping_add a b) :=
  isBytes_wrapping_add_aux a b false

theorem wrapping_add_aux_cons (x y : Nat) (xs ys : Word) (c : Bool) :
    wrapping_add_aux (x :: xs) (y :: ys) c =
      (x + y + (if c then 1 else 0)) % 256 ::
        wrapping_add_aux xs ys (decide ((x + y + (if c then 1 else 0)) >>> 8 > 0)) := rfl

theorem toInt_wrapping_add_aux (a : Word) : ∀ (b : Word) (c : Bool),
    a.length = b.length → IsBytes a → IsBytes b →
    toInt (wrapping_add_aux a b c) =
      (toInt a + toInt b + (if c then 1 else 0)) % 2 ^ (8 * a.length) := by
  induction a with
  | nil =>
      intro b c hlen _ _
      have hb : b = [] := List.length_eq_zero.mp hlen.symm
      subst hb
      simp [wrapping_add_aux, toInt, Nat.mod_one]
  | cons x xs ih =>
      intro b c hlen ha hb
      cases b with
      | nil => simp at hlen
      | cons y ys =>
          have hx : x < 256 := ha x (List.mem_cons_self x xs)
          have hy : y < 256 := hb y (List.mem_cons_self y ys)
          have hlen2 : xs.length = ys.length := by simpa using hlen
          have hcv : (if c then 1 else 0 : ℕ) ≤ 1 := by split <;> omega
          rw [wrapping_add_aux_cons]
          simp only [toInt]
          rw [ih ys _ hlen2 (fun z hz => ha z (List.mem_cons_of_mem x hz))
            (fun z hz => hb z (List.mem_cons_of_mem y hz))]
          have hsr : (x + y + (if c then 1 else 0)) >>> 8 = (x + y + (if c then 1 else 0)) / 256 := by
            rw [Nat.shiftRight_eq_div_pow]
          have hcv2 : (if decide ((x + y + (if c then 1 else 0)) >>> 8 > 0) = true then (1:ℕ) else 0)
              = (x + y + (if c then 1 else 0)) / 256 := by
            rw [hsr]
            rcases Nat.lt_or_ge (x + y + (if c then 1 else 0)) 256 with h | h
            · simp [Nat.div_eq_of_lt h]
            · have h2 : (x + y + (if c then 1 else 0)) / 256 = 1 := by omega
              simp [h2]
          rw [hcv2]
          set s := x + y + (if c then 1 else 0) with hs
          set M := 2 ^ (8 * xs.length) with hM
          have hMpos : 0 < M := Nat.pos_pow_of_pos _ (by norm_num)
          have hpow : 2 ^ (8 * (x :: xs).length) = 256 * M := by
            simp only [hM, List.length_cons]
            rw [Nat.mul_succ, pow_add]
            ring
          rw [hpow]
          set S := toInt xs + toInt ys + s / 256 with hS
          have key : (s % 256 + 256 * S) % (256 * M) = s % 256 + 256 * (S % M) := by
            have hSdm : S = M * (S / M) + S % M := (Nat.div_add_mod S M).symm
            have expand : s % 256 + 256 * S = s % 256 + 256 * (S % M) + (256 * M) * (S / M) := by
              calc s % 256 + 256 * S = s % 256 + 256 * (M * (S / M) + S % M) := by rw [← hSdm]
                _ = s % 256 + 256 * (S % M) + (256 * M) * (S / M) := by ring
            rw [expand, Nat.add_mul_mod_self_left]
            exact Nat.mod_eq_of_lt (by
              have h1 : s % 256 < 256 := Nat.mod_lt _ (by norm_num)
              have h2 : S % M < M := Nat.mod_lt _ hMpos
              calc s % 256 + 256 * (S % M) < 256 + 256 * (S % M) := by omega
                _ ≤ 256 + 256 * (M - 1) := by
                    have : S % M ≤ M - 1 := by omega
                    omega
                _ ≤ 256 * M := by omega)
          have rearrange : x + 256 * toInt xs + (y + 256 * toInt ys) + (if c then 1 else 0) =
              s % 256 + 256 * S := by
            have := Nat.div_add_mod s 256
            simp only [hS]
            omega
          rw [rearrange, key]

theorem toInt_wrapping_add {a b : Word} (hlen : a.length = b.length)
    (ha : IsBytes a) (hb : IsBytes b) :
    toInt (wrapping_add a b) = (toInt a + toInt b) % 2 ^ (8 * a.length) := by
  simpa using toInt_wrapping_add_aux a b false hlen ha hb

theorem wrapping_sub_aux_cons (x y : Nat) (xs ys : Word) (w : Bool) :
    wrapping_sub_aux (x :: xs) (y :: ys) w =
      ((if decide ((x : Int) - (y : Int) - (if w then 1 else 0) < 0)
          then (x : Int) - (y : Int) - (if w then 1 else 0) + 256
          else (x : Int) - (y : Int) - (if w then 1 else 0)) % 256).toNat ::
        wrapping_sub_aux xs ys (decide ((x : Int) - (y : Int) - (if w then 1 else 0) < 0)) := rfl

theorem length_wrapping_sub_aux (a b : Word) (w : Bool) :
    (wrapping_sub_aux a b w).length = min a.length b.length := by
  induction a generalizing b w with
  | nil => cases b <;> simp [wrapping_sub_aux]
  | cons x xs ih =>
      cases b with
      | nil => simp [wrapping_sub_aux]
      | cons y ys => simp [wrapping_sub_aux, ih, Nat.succ_min_succ]

theorem length_wrapping_sub (a b : Word) : (wrapping_sub a b).length = min a.length b.length :=
  length_wrapping_sub_aux a b false

theorem isBytes_wrapping_sub_aux (a b : Word) (w : Bool) : IsBytes (wrapping_sub_aux a b w) := by
  induction a generalizing b w with
  | nil => cases b <;> simp [wrapping_sub_aux, IsBytes]
  | cons x xs ih =>
      cases b with
      | nil => simp [wrapping_sub_aux, IsBytes]
      | cons y ys =>
          intro z hz
          rw [wrapping_sub_aux_cons] at hz
          rcases List.mem_cons.mp hz with hz | hz
          · subst hz
            have h1 : (0:Int) ≤ (if decide ((x : Int) - (y : Int) - (if w then 1 else 0) < 0)
                then (x : Int) - (y : Int) - (if w then 1 else 0) + 256
                else (x : Int) - (y : Int) - (if w then 1 else 0)) % 256 :=
              Int.emod_nonneg _ (by norm_num)
            have h2 : (if decide ((x : Int) - (y : Int) - (if w then 1 else 0) < 0)
                then (x : Int) - (y : Int) - (if w then 1 else 0) + 256
                else (x : Int) - (y : Int) - (if w then 1 else 0)) % 256 < 256 :=
              Int.emod_lt_of_pos _ (by norm_num)
            omega
          · exact ih ys _ z hz

theorem isBytes_wrapping_sub (a b : Word) : IsBytes (wrapping_sub a b) :=
  isBytes_wrapping_sub_aux a b false

theorem emod_block (u r M qq : Int) (hu0 : 0 ≤ u) (hu : u < 256) (hr0 : 0 ≤ r) (hr : r < M) :
    (u + 256 * r + 256 * M * qq) % (256 * M) = u + 256 * r := by
  rw [Int.add_mul_emod_self_left]
  exact Int.emod_eq_of_lt (by omega) (by omega)

theorem toInt_wrapping_sub_aux (a : Word) : ∀ (b : Word) (w : Bool),
    a.length = b.length → IsBytes a → IsBytes b →
    (toInt (wrapping_sub_aux a b w) : Int) =
      ((toInt a : Int) - (toInt b : Int) - (if w then 1 else 0)) % 2 ^ (8 * a.length) := by
  induction a with
  | nil =>
      intro b w hlen _ _
      have hb : b = [] := List.length_eq_zero.mp hlen.symm
      subst hb
      simp [wrapping_sub_aux, toInt, Int.emod_one]
  | cons x xs ih =>
      intro b w hlen ha hb
      cases b with
      | nil => simp at hlen
      | cons y ys =>
          have hx : x < 256 := ha x (List.mem_cons_self x xs)
          have hy : y < 256 := hb y (List.mem_cons_self y ys)
          have hlen2 : xs.length = ys.length := by simpa using hlen
          rw [wrapping_sub_aux_cons]
          set d : Int := (x : Int) - (y : Int) - (if w then 1 else 0) with hd
          set w2 := decide (d < 0) with hw2
          set d2 : Int := if w2 then d + 256 else d with hd2
          have hwb : (0:Int) ≤ (if w then (1:Int) else 0) ∧ (if w then (1:Int) else 0) ≤ 1 := by
            split <;> norm_num
          have hdrange : -256 ≤ d ∧ d < 256 := by
            obtain ⟨h1, h2⟩ := hwb
            omega
          have hd2eq : d2 = d + 256 * (if w2 then 1 else 0) := by
            by_cases h : d < 0
            · have ht : w2 = true := by simp [hw2, h]
              rw [hd2, ht]; norm_num
            · have ht : w2 = false := by simp [hw2, h]
              rw [hd2, ht]; norm_num
          have hw2b : (0:Int) ≤ (if w2 then (1:Int) else 0) ∧ (if w2 then (1:Int) else 0) ≤ 1 ∧
              (d < 0 → (if w2 then (1:Int) else 0) = 1) ∧ (0 ≤ d → (if w2 then (1:Int) else 0) = 0) := by
            by_cases h : d < 0
            · have ht : w2 = true := by simp [hw2, h]
              rw [ht]; norm_num; omega
            · have ht : w2 = false := by simp [hw2, h]
              rw [ht]; norm_num; omega
          have hd2range : 0 ≤ d2 ∧ d2 < 256 := by
            obtain ⟨h1, h2, h3, h4⟩ := hw2b
            by_cases h : d < 0
            · rw [hd2eq, h3 h]; omega
            · rw [hd2eq, h4 (by omega)]; omega
          have hd2mod : d2 % 256 = d2 := Int.emod_eq_of_lt hd2range.1 hd2range.2
          have houtcast : (((d2 % 256).toNat : ℕ) : Int) = d2 := by
            rw [hd2mod]; exact Int.toNat_of_nonneg hd2range.1
          have ihs := ih ys w2 hlen2 (fun z hz => ha z (List.mem_cons_of_mem x hz))
            (fun z hz => hb z (List.mem_cons_of_mem y hz))
          have hcast : ((toInt ((d2 % 256).toNat :: wrapping_sub_aux xs ys w2) : ℕ) : Int) =
              (((d2 % 256).toNat : ℕ) : Int) + 256 * ((toInt (wrapping_sub_aux xs ys w2) : ℕ) : Int) := by
            simp only [toInt]
            push_cast
            ring
          rw [hcast, houtcast, ihs]
          set M : Int := 2 ^ (8 * xs.length) with hM
          have hMpos : (0:Int) < M := by positivity
          have hpow : ((2:Int) ^ (8 * (x :: xs).length)) = 256 * M := by
            simp only [hM, List.length_cons]
            rw [Nat.mul_succ, pow_add]
            ring
          set A : Int := (toInt xs : Int) with hA
          set B : Int := (toInt ys : Int) with hB
          set r : Int := (A - B - (if w2 then 1 else 0)) % M with hr
          set qq : Int := (A - B - (if w2 then 1 else 0)) / M with hqq
          have hrdm : r + M * qq = A - B - (if w2 then 1 else 0) := Int.emod_add_ediv _ M
          have hrnn : 0 ≤ r := Int.emod_nonneg _ (by omega)
          have hrlt : r < M := Int.emod_lt_of_pos _ hMpos
          have hcons : (toInt (x :: xs) : Int) = (x : Int) + 256 * A := by
            simp only [toInt]; push_cast; ring
          have hcons2 : (toInt (y :: ys) : Int) = (y : Int) + 256 * B := by
            simp only [toInt]; push_cast; ring
          rw [hcons, hcons2, hpow]
          have expand : (x : Int) + 256 * A - ((y : Int) + 256 * B) - (if w then 1 else 0) =
              d2 + 256 * r + 256 * M * qq := by
            linear_combination hd - hd2eq - 256 * hrdm
          rw [expand, emod_block d2 r M qq hd2range.1 hd2range.2 hrnn hrlt]

theorem toInt_wrapping_sub {a b : Word} (hlen : a.length = b.length)
    (ha : IsBytes a) (hb : IsBytes b) :
    (toInt (wrapping_sub a b) : Int) =
      ((toInt a : Int) - (toInt b : Int)) % 2 ^ (8 * a.length) := by
  simpa using toInt_wrapping_sub_aux a b false hlen ha hb

theorem toInt_inj : ∀ {a b : Word}, IsBytes a → IsBytes b → a.length = b.length →
    toInt a = toInt b → a = b := by
  intro a
  induction a with
  | nil =>
      intro b _ _ hlen _
      exact (List.length_eq_zero.mp hlen.symm).symm
  | cons x xs ih =>
      intro b ha hb hlen heq
      cases b with
      | nil => simp at hlen
      | cons y ys =>
          have hx : x < 256 := ha x (List.mem_cons_self x xs)
          have hy : y < 256 := hb y (List.mem_cons_self y ys)
          simp only [toInt] at heq
          have hxy : x = y ∧ toInt xs = toInt ys := by omega
          have := ih (fun z hz => ha z (List.mem_cons_of_mem x hz))
            (fun z hz => hb z (List.mem_cons_of_mem y hz)) (by simpa using hlen) hxy.2
          rw [hxy.1, this]

theorem toInt_cast_inj {a b : Word} (ha : IsBytes a) (hb : IsBytes b)
    (hlen : a.length = b.length) (h : (toInt a : Int) = (toInt b : Int)) : a = b :=
  toInt_inj ha hb hlen (by exact_mod_cast h)

/-- `wrapping_sub` undoes `wrapping_add`: the core of the add/sub inverse. -/
theorem wrapping_sub_wrapping_add {a b : Word} (hlen : a.length = b.length)
    (ha : IsBytes a) (hb : IsBytes b) :
    wrapping_sub (wrapping_add a b) b = a := by
  have hablen : (wrapping_add a b).length = a.length := by
    rw [length_wrapping_add, hlen, Nat.min_self]
  have hab : IsBytes (wrapping_add a b) := isBytes_wrapping_add a b
  have hslen : (wrapping_sub (wrapping_add a b) b).length = a.length := by
    rw [length_wrapping_sub, hablen, hlen, Nat.min_self, ← hlen]
  apply toInt_cast_inj (isBytes_wrapping_sub _ _) ha hslen
  set M : Int := (2 : Int) ^ (8 * a.length) with hM
  have hMpos : (0:Int) < M := by positivity
  have h1 : (toInt (wrapping_sub (wrapping_add a b) b) : Int) =
      ((toInt (wrapping_add a b) : Int) - (toInt b : Int)) % M := by
    have := @toInt_wrapping_sub (wrapping_add a b) b (by rw [hablen, hlen]) hab hb
    rw [this, hablen]
  have h2 : (toInt (wrapping_add a b) : Int) = ((toInt a : Int) + (toInt b : Int)) % M := by
    rw [toInt_wrapping_add hlen ha hb, hM]
    push_cast
    rfl
  rw [h1, h2]
  have h3 : (((toInt a : Int) + (toInt b : Int)) % M - (toInt b : Int)) % M
      = ((toInt a : Int) + (toInt b : Int) - (toInt b : Int)) % M := by
    conv_rhs => rw [Int.sub_emod]
    conv_lhs => rw [Int.sub_emod, Int.emod_emod_of_dvd _ dvd_rfl]
  rw [h3]
  have h4 : (toInt a : Int) + (toInt b : Int) - (toInt b : Int) = (toInt a : Int) := by ring
  rw [h4]
  exact Int.emod_eq_of_lt (by positivity) (by rw [hM]; exact_mod_cast toInt_lt ha)

/-- `wrapping_add` undoes `wrapping_sub`: the other direction of the inverse. -/
theorem wrapping_add_wrapping_sub {a b : Word} (hlen : a.length = b.length)
    (ha : IsBytes a) (hb : IsBytes b) :
    wrapping_add (wrapping_sub a b) b = a := by
  have hablen : (wrapping_sub a b).length = a.length := by
    rw [length_wrapping_sub, hlen, Nat.min_self]
  have hab : IsBytes (wrapping_sub a b) := isBytes_wrapping_sub a b
  have hslen : (wrapping_add (wrapping_sub a b) b).length = a.length := by
    rw [length_wrapping_add, hablen, hlen, Nat.min_self, ← hlen]
  apply toInt_cast_inj (isBytes_wrapping_add _ _) ha hslen
  set M : Int := (2 : Int) ^ (8 * a.length) with hM
  have hMpos : (0:Int) < M := by positivity
  have h1 : (toInt (wrapping_add (wrapping_sub a b) b) : Int) =
      ((toInt (wrapping_sub a b) : Int) + (toInt b : Int)) % M := by
    rw [@toInt_wrapping_add (wrapping_sub a b) b (by rw [hablen, hlen]) hab hb,
      hablen, hM]
    push_cast
    rfl
  have h2 : (toInt (wrapping_sub a b) : Int) = ((toInt a : Int) - (toInt b : Int)) % M := by
    rw [toInt_wrapping_sub hlen ha hb, hM]
  rw [h1, h2]
  have h3 : (((toInt a : Int) - (toInt b : Int)) % M + (toInt b : Int)) % M
      = ((toInt a : Int) - (toInt b : Int) + (toInt b : Int)) % M := by
    conv_rhs => rw [Int.add_emod]
    conv_lhs => rw [Int.add_emod, Int.emod_emod_of_dvd _ dvd_rfl]
  rw [h3]
  have h4 : (toInt a : Int) - (toInt b : Int) + (toInt b : Int) = (toInt a : Int) := by ring
  rw [h4]
  exact Int.emod_eq_of_lt (by positivity) (by rw [hM]; exact_mod_cast toInt_lt ha)

/-! ### Lemmas about `bitxor` -/

theorem length_bitxor (a b : Word) : (bitxor a b).length = min a.length b.length := by
  simp [bitxor]

theorem isBytes_bitxor {a b : Word} (ha : IsBytes a) (hb : IsBytes b) :
    IsBytes (bitxor a b) := by
  intro z hz
  simp only [bitxor] at hz
  rcases List.mem_iff_getElem.mp hz with ⟨i, hlt, hi⟩
  have hia : i < a.length := by simp at hlt; omega
  have hib : i < b.length := by simp at hlt; omega
  rw [List.getElem_zipWith] at hi
  subst hi
  have h256 : (256 : ℕ) = 2 ^ 8 := by norm_num
  rw [h256]
  exact Nat.xor_lt_two_pow (h256 ▸ ha _ (List.getElem_mem hia)) (h256 ▸ hb _ (List.getElem_mem hib))

theorem bitxor_cancel {a b : Word} (hlen : a.length = b.length) :
    bitxor (bitxor a b) b = a := by
  induction a generalizing b with
  | nil => simp [bitxor]
  | cons x xs ih =>
      cases b with
      | nil => simp at hlen
      | cons y ys =>
          simp only [bitxor, List.zipWith_cons_cons]
          rw [Nat.xor_cancel_right]
          have := @ih ys (by simpa using hlen)
          simp only [bitxor] at this
          rw [this]

/-! ### The `rotate` loop as a per-byte OR of contributions -/

theorem getD_set_self {l : List Nat} {m : Nat} {x : Nat} (h : m < l.length) :
    (l.set m x).getD m 0 = x := by
  rw [List.getD_eq_getElem?_getD, List.getElem?_set_self h]
  rfl

theorem getD_set_ne {l : List Nat} {m d : Nat} {x : Nat} (h : m ≠ d) :
    (l.set m x).getD d 0 = l.getD d 0 := by
  rw [List.getD_eq_getElem?_getD, List.getElem?_set_ne h, ← List.getD_eq_getElem?_getD]

theorem length_write_bit (v : Word) (g : Nat → Nat → Nat → Nat) (n' B : Nat)
    (out : Word) (i : Nat) : (write_bit v g n' B out i).length = out.length := by
  simp [write_bit]

theorem length_rotate_fold (v : Word) (g : Nat → Nat → Nat → Nat) (n' B : Nat) :
    ∀ (is : List Nat) (out : Word), (is.foldl (write_bit v g n' B) out).length = out.length := by
  intro is
  induction is with
  | nil => intro out; rfl
  | cons i is ih =>
      intro out
      rw [List.foldl_cons, ih, length_write_bit]

theorem testBit_orList (ls : List Nat) (k : Nat) :
    Nat.testBit (orList ls) k = ls.any fun x => Nat.testBit x k := by
  induction ls with
  | nil => simp [orList]
  | cons x xs ih => simp [orList, Nat.testBit_lor, ih]

theorem orList_lt (ls : List Nat) (h : ∀ x ∈ ls, x < 256) : orList ls < 256 := by
  induction ls with
  | nil => simp [orList]
  | cons x xs ih =>
      have h256 : (256 : ℕ) = 2 ^ 8 := by norm_num
      simp only [orList]
      rw [h256]
      exact Nat.or_lt_two_pow (h256 ▸ h x (List.mem_cons_self x xs))
        (h256 ▸ ih fun z hz => h z (List.mem_cons_of_mem x hz))

theorem contrib_lt (v : Word) (g : Nat → Nat → Nat → Nat) (n' B d i : Nat) :
    contrib v g n' B d i < 256 := by
  rw [contrib]
  split
  · exact Nat.mod_lt _ (by norm_num)
  · norm_num

/-- The fold of the `rotate` loop, restricted to one output byte, is the OR
of the per-iteration contributions. -/
theorem rotate_fold_getD (v : Word) (g : Nat → Nat → Nat → Nat) (n' B : Nat) :
    ∀ (is : List Nat) (out : Word), (∀ i ∈ is, g n' i B < 8 * out.length) → ∀ (d : Nat),
      (is.foldl (write_bit v g n' B) out).getD d 0 =
        out.getD d 0 ||| orList (is.map (contrib v g n' B d)) := by
  intro is
  induction is with
  | nil =>
      intro out _ d
      simp [orList]
  | cons i is ih =>
      intro out hlt d
      rw [List.foldl_cons, List.map_cons]
      have hstep := ih (write_bit v g n' B out i)
        (fun z hz => by
          rw [length_write_bit]
          exact hlt z (List.mem_cons_of_mem i hz)) d
      rw [hstep]
      have hdb : g n' i B / 8 < out.length := by
        have := hlt i (List.mem_cons_self i is)
        omega
      by_cases hcase : g n' i B / 8 = d
      · have hset : (write_bit v g n' B out i).getD d 0 =
            out.getD d 0 ||| ((v.getD (i / 8) 0 >>> (i % 8)) <<< (g n' i B % 8)) % 256 := by
          rw [write_bit, ← hcase]
          exact getD_set_self hdb
        have hcontrib : contrib v g n' B d i =
            ((v.getD (i / 8) 0 >>> (i % 8)) <<< (g n' i B % 8)) % 256 := by
          rw [contrib, if_pos hcase]
        rw [hset, hcontrib, orList, Nat.or_assoc]
      · have hset : (write_bit v g n' B out i).getD d 0 = out.getD d 0 :=
          getD_set_ne hcase
        have hcontrib : contrib v g n' B d i = 0 := by
          rw [contrib, if_neg hcase]
        rw [hset, hcontrib, orList, Nat.zero_or]

theorem isBytes_iff_getD {w : Word} : IsBytes w ↔ ∀ d < w.length, w.getD d 0 < 256 := by
  constructor
  · intro h d hd
    rw [List.getD_eq_getElem w 0 hd]
    exact h _ (List.getElem_mem hd)
  · intro h z hz
    rcases List.mem_iff_getElem.mp hz with ⟨i, hi, rfl⟩
    rw [← List.getD_eq_getElem w 0 hi]
    exact h i hi

/-- Bit-level characterization of the `rotate` loop: when every destination
index is `(i + D) % num_bits`, output bit `j` is input bit
`(j + (num_bits - D)) % num_bits`.  The unmasked OR-accumulation computes the
exact bit-rotation permutation because every stray bit OR-ed beyond the
intended destination duplicates a correctly-placed bit. -/
theorem rotate_fold_testBit (v : Word) (hv : IsBytes v) (g : Nat → Nat → Nat → Nat)
    (n' D : Nat) (hD0 : 0 < D) (hDB : D < v.length * 8)
    (hg : ∀ i < v.length * 8, g n' i (v.length * 8) = (i + D) % (v.length * 8))
    (j : Nat) (hj : j < v.length * 8) :
    wTestBit ((List.range (v.length * 8)).foldl (write_bit v g n' (v.length * 8))
      (List.replicate v.length 0)) j
      = wTestBit v ((j + (v.length * 8 - D)) % (v.length * 8)) := by
  have hBpos : 0 < v.length * 8 := by omega
  have hfold := rotate_fold_getD v g n' (v.length * 8) (List.range (v.length * 8))
    (List.replicate v.length 0)
    (fun i hi => by
      rw [List.length_replicate, hg i (List.mem_range.mp hi)]
      have := Nat.mod_lt (i + D) hBpos
      omega) (j / 8)
  rw [wTestBit, hfold]
  have hrep : (List.replicate v.length 0).getD (j / 8) 0 = 0 := by
    rcases Nat.lt_or_ge (j / 8) v.length with h | h
    · rw [List.getD_eq_getElem _ _ (by simpa using h), List.getElem_replicate]
    · rw [List.getD_eq_getElem?_getD, List.getElem?_eq_none (by simpa using h)]
      rfl
  rw [hrep, Nat.zero_or, testBit_orList, List.any_map]
  rw [Bool.eq_iff_iff]
  constructor
  · intro h
    rw [List.any_eq_true] at h
    obtain ⟨i, hmem, hbit⟩ := h
    simp only [Function.comp_apply] at hbit
    have hiB : i < v.length * 8 := List.mem_range.mp hmem
    rw [contrib] at hbit
    by_cases hcase : g n' i (v.length * 8) / 8 = j / 8
    case neg =>
        rw [if_neg hcase] at hbit
        simp at hbit
    rw [if_pos hcase] at hbit
    have h256 : (256 : ℕ) = 2 ^ 8 := by norm_num
    rw [h256, Nat.testBit_mod_two_pow, Bool.and_eq_true] at hbit
    obtain ⟨hs8, hbit⟩ := hbit
    rw [Nat.testBit_shiftLeft, Bool.and_eq_true] at hbit
    obtain ⟨hge, hbit⟩ := hbit
    rw [Nat.testBit_shiftRight] at hbit
    have hgei : g n' i (v.length * 8) % 8 ≤ j % 8 := by simpa using hge
    set e := g n' i (v.length * 8) with he2
    have he : e = (i + D) % (v.length * 8) := hg i hiB
    set t := j % 8 - e % 8 with ht
    have hbyte : v.getD (i / 8) 0 < 256 := by
      rcases Nat.lt_or_ge (i / 8) v.length with h | h
      · rw [List.getD_eq_getElem _ _ h]
        exact hv _ (List.getElem_mem h)
      · rw [List.getD_eq_getElem?_getD, List.getElem?_eq_none (by simpa using h)]
        norm_num
    have hlt8 : i % 8 + t < 8 := by
      by_contra hcon
      push_neg at hcon
      have hpow : (256 : ℕ) ≤ 2 ^ (i % 8 + t) := by
        calc (256 : ℕ) = 2 ^ 8 := by norm_num
          _ ≤ 2 ^ (i % 8 + t) := Nat.pow_le_pow_right (by norm_num) hcon
      have hfalse : Nat.testBit (v.getD (i / 8) 0) (i % 8 + t) = false :=
        Nat.testBit_lt_two_pow (lt_of_lt_of_le hbyte hpow)
      rw [hfalse] at hbit
      exact absurd hbit (by simp)
    have heB : e < v.length * 8 := by rw [he]; exact Nat.mod_lt _ hBpos
    have hjet : j = e + t := by omega
    have hit : i + t < v.length * 8 := by omega
    have htarget : (j + (v.length * 8 - D)) % (v.length * 8) = i + t := by
      rw [hjet, he, Nat.add_assoc, Nat.mod_add_mod]
      have harith : i + D + (t + (v.length * 8 - D)) = i + t + v.length * 8 := by omega
      rw [harith, Nat.add_mod_right]
      exact Nat.mod_eq_of_lt hit
    rw [htarget, wTestBit]
    have hdiv : (i + t) / 8 = i / 8 := by omega
    have hmod : (i + t) % 8 = i % 8 + t := by omega
    rw [hdiv, hmod]
    exact hbit
  · intro h
    rw [List.any_eq_true]
    refine ⟨(j + (v.length * 8 - D)) % (v.length * 8),
      List.mem_range.mpr (Nat.mod_lt _ hBpos), ?_⟩
    simp only [Function.comp_apply]
    set i := (j + (v.length * 8 - D)) % (v.length * 8) with hi
    have hiB : i < v.length * 8 := by rw [hi]; exact Nat.mod_lt _ hBpos
    have he : g n' i (v.length * 8) = (i + D) % (v.length * 8) := hg i hiB
    have hej : (i + D) % (v.length * 8) = j := by
      rw [hi, Nat.mod_add_mod]
      have harith : j + (v.length * 8 - D) + D = j + v.length * 8 := by omega
      rw [harith, Nat.add_mod_right]
      exact Nat.mod_eq_of_lt hj
    rw [contrib, he, hej, if_pos rfl]
    have h256 : (256 : ℕ) = 2 ^ 8 := by norm_num
    rw [h256, Nat.testBit_mod_two_pow, Nat.testBit_shiftLeft, Nat.testBit_shiftRight]
    have hjmod : j % 8 < 8 := Nat.mod_lt _ (by norm_num)
    simpa [Nat.sub_self, wTestBit, hjmod] using h

/-! ### Properties of the rotation modulus -/

theorem is_power_of_two_iff {x : Nat} : is_power_of_two x = true ↔ ∃ k, x = 2 ^ k := by
  rw [is_power_of_two, List.any_eq_true]
  constructor
  · rintro ⟨k, _, hk⟩
    exact ⟨k, by simpa using hk⟩
  · rintro ⟨k, rfl⟩
    refine ⟨k, List.mem_range.mpr ?_, by simp⟩
    have := Nat.lt_two_pow k
    omega

theorem npt_go_stay {x acc : Nat} (h : x ≤ acc) : ∀ fuel, npt_go x fuel acc = acc := by
  intro fuel
  cases fuel with
  | zero => rfl
  | succ fuel => rw [npt_go, if_neg (by omega)]

theorem npt_go_ge (x : Nat) : ∀ (fuel acc : Nat),
    x ≤ npt_go x fuel acc ∨ npt_go x fuel acc = 2 ^ fuel * acc := by
  intro fuel
  induction fuel with
  | zero =>
      intro acc
      right
      simp [npt_go]
  | succ fuel ih =>
      intro acc
      rw [npt_go]
      by_cases h : acc < x
      · rw [if_pos h]
        rcases ih (acc * 2) with h2 | h2
        · exact Or.inl h2
        · right
          rw [h2, pow_succ]
          ring
      · rw [if_neg h]
        omega

theorem npt_go_shape (x : Nat) : ∀ (fuel c : Nat), (c = 0 ∨ 2 ^ (c - 1) < x) →
    ∃ d, npt_go x fuel (2 ^ c) = 2 ^ d ∧ (d = 0 ∨ 2 ^ (d - 1) < x) := by
  intro fuel
  induction fuel with
  | zero =>
      intro c hc
      exact ⟨c, rfl, hc⟩
  | succ fuel ih =>
      intro c hc
      rw [npt_go]
      by_cases h : 2 ^ c < x
      · rw [if_pos h]
        have h2 : (2 : ℕ) ^ c * 2 = 2 ^ (c + 1) := by rw [pow_succ]
        rw [h2]
        exact ih (c + 1) (Or.inr (by simpa using h))
      · rw [if_neg h]
        exact ⟨c, rfl, hc⟩

/-- Certifies the semantics of the `next_power_of_two` embedding: the result
is a power of two, at least the argument, and minimal among such powers. -/
theorem next_power_of_two_correct (x : Nat) :
    (∃ c, next_power_of_two x = 2 ^ c ∧ (c = 0 ∨ 2 ^ (c - 1) < x)) ∧
      x ≤ next_power_of_two x ∧ ∀ c, x ≤ 2 ^ c → next_power_of_two x ≤ 2 ^ c := by
  have hshape : ∃ d, next_power_of_two x = 2 ^ d ∧ (d = 0 ∨ 2 ^ (d - 1) < x) := by
    have := npt_go_shape x x 0 (Or.inl rfl)
    simpa [next_power_of_two] using this
  have hge : x ≤ next_power_of_two x := by
    rcases npt_go_ge x x 1 with h | h
    · exact h
    · rw [next_power_of_two, h, Nat.mul_one]
      have := Nat.lt_two_pow x
      omega
  obtain ⟨d, hd, hdlt⟩ := hshape
  refine ⟨⟨d, hd, hdlt⟩, hge, fun c hc => ?_⟩
  rw [hd]
  rcases hdlt with rfl | hdlt
  · simpa using Nat.one_le_two_pow
  · by_contra hcon
    push_neg at hcon
    have hcd : c < d := by
      by_contra h2
      push_neg at h2
      have hle : (2 : ℕ) ^ d ≤ 2 ^ c := Nat.pow_le_pow_right (by norm_num) h2
      omega
    have : 2 ^ c ≤ 2 ^ (d - 1) := Nat.pow_le_pow_right (by norm_num) (by omega)
    omega

theorem rotate_modulus_of_pow2 {B : Nat} (h : is_power_of_two B = true) :
    rotate_modulus B = B := by
  rw [rotate_modulus, if_pos h]

theorem one_lt_of_not_pow2 {B : Nat} (hB : 0 < B) (h : is_power_of_two B = false) : 2 ≤ B := by
  rcases Nat.lt_or_ge B 2 with h2 | h2
  · have hB1 : B = 1 := by omega
    have : is_power_of_two B = true := is_power_of_two_iff.mpr ⟨0, by omega⟩
    rw [this] at h
    exact absurd h (by simp)
  · exact h2

/-- For a byte count that is not a power of two, the rotation modulus is a
power of two, strictly below the bit count, and maximal among such powers. -/
theorem rotate_modulus_not_pow2_spec {B : Nat} (hB : 0 < B)
    (h : is_power_of_two B = false) :
    (∃ c, rotate_modulus B = 2 ^ c) ∧ 0 < rotate_modulus B ∧ rotate_modulus B < B ∧
      ∀ k, 2 ^ k < B → 2 ^ k ≤ rotate_modulus B := by
  have h2B : 2 ≤ B := one_lt_of_not_pow2 hB h
  obtain ⟨⟨d, hd, hdlt⟩, hge, hmin⟩ := next_power_of_two_correct B
  have hd1 : 1 ≤ d := by
    rcases Nat.eq_zero_or_pos d with rfl | h1
    · rw [hd] at hge
      omega
    · exact h1
  have hmod : rotate_modulus B = 2 ^ (d - 1) := by
    rw [rotate_modulus, if_neg (by simp [h]), hd, Nat.shiftRight_eq_div_pow]
    obtain ⟨k, hk⟩ : ∃ k, d = k + 1 := ⟨d - 1, by omega⟩
    rw [hk, pow_succ, pow_one, Nat.add_sub_cancel, Nat.mul_div_cancel _ (by norm_num : 0 < 2)]
  have hlt : 2 ^ (d - 1) < B := by
    rcases hdlt with rfl | hdlt
    · omega
    · exact hdlt
  refine ⟨⟨d - 1, hmod⟩, by rw [hmod]; positivity, by rw [hmod]; exact hlt, fun k hk => ?_⟩
  rw [hmod]
  have hkd : k ≤ d - 1 := by
    by_contra hc
    push_neg at hc
    have : 2 ^ d ≤ 2 ^ k := Nat.pow_le_pow_right (by norm_num) (by omega)
    have : B ≤ 2 ^ k := by
      rw [← hd] at this
      omega
    omega
  exact Nat.pow_le_pow_right (by norm_num) hkd

theorem rotate_modulus_pos {B : Nat} (hB : 0 < B) : 0 < rotate_modulus B := by
  rcases Bool.eq_false_or_eq_true (is_power_of_two B) with h | h
  · rw [rotate_modulus_of_pow2 h]
    exact hB
  · exact (rotate_modulus_not_pow2_spec hB h).2.1

theorem rotate_modulus_le {B : Nat} (hB : 0 < B) : rotate_modulus B ≤ B := by
  rcases Bool.eq_false_or_eq_true (is_power_of_two B) with h | h
  · rw [rotate_modulus_of_pow2 h]
  · exact le_of_lt (rotate_modulus_not_pow2_spec hB h).2.2.1

/-! ### Length and byte preservation of `rotate` -/

theorem getD_lt_of_isBytes {w : Word} (hw : IsBytes w) (d : Nat) : w.getD d 0 < 256 := by
  rcases Nat.lt_or_ge d w.length with h | h
  · rw [List.getD_eq_getElem _ _ h]
    exact hw _ (List.getElem_mem h)
  · rw [List.getD_eq_getElem?_getD, List.getElem?_eq_none (by simpa using h)]
    norm_num

theorem isBytes_write_bit (v : Word) (g : Nat → Nat → Nat → Nat) (n' B : Nat)
    (out : Word) (i : Nat) (hout : IsBytes out) : IsBytes (write_bit v g n' B out i) := by
  intro z hz
  simp only [write_bit] at hz
  rcases List.mem_or_eq_of_mem_set hz with h | h
  · exact hout z h
  · subst h
    have h1 : out.getD (g n' i B / 8) 0 < 256 := getD_lt_of_isBytes hout _
    have h2 : (v.getD (i / 8) 0 >>> (i % 8)) <<< (g n' i B % 8) % 256 < 256 :=
      Nat.mod_lt _ (by norm_num)
    have h256 : (256 : ℕ) = 2 ^ 8 := by norm_num
    rw [h256]
    exact Nat.or_lt_two_pow (h256 ▸ h1) (h256 ▸ h2)

theorem isBytes_rotate_fold (v : Word) (g : Nat → Nat → Nat → Nat) (n' B : Nat) :
    ∀ (is : List Nat) (out : Word), IsBytes out →
      IsBytes (is.foldl (write_bit v g n' B) out) := by
  intro is
  induction is with
  | nil => intro out h; exact h
  | cons i is ih =>
      intro out h
      rw [List.foldl_cons]
      exact ih _ (isBytes_write_bit v g n' B out i h)

theorem length_rotate (v : Word) (n : Nat) (g : Nat → Nat → Nat → Nat) :
    (rotate v n g).length = v.length := by
  simp only [rotate]
  split
  · rfl
  · rw [length_rotate_fold, List.length_replicate]

theorem isBytes_rotate {v : Word} (hv : IsBytes v) (n : Nat) (g : Nat → Nat → Nat → Nat) :
    IsBytes (rotate v n g) := by
  simp only [rotate]
  split
  · exact hv
  · exact isBytes_rotate_fold v g _ _ _ _ (by intro z hz; simp at hz; omega)

theorem rotate_of_mod_zero {v : Word} {n : Nat} (g : Nat → Nat → Nat → Nat)
    (h : n % rotate_modulus (v.length * 8) = 0) : rotate v n g = v := by
  simp only [rotate]
  rw [if_pos h]

theorem rotate_nil (n : Nat) (g : Nat → Nat → Nat → Nat) : rotate [] n g = [] := by
  simp only [rotate]
  split <;> rfl

/-! ### Word-level characterization of `rotate_left` / `rotate_right` -/

theorem wTestBit_rotate_left {v : Word} (hv : IsBytes v) {n : Nat}
    (hn : n % rotate_modulus (v.length * 8) ≠ 0) {j : Nat} (hj : j < v.length * 8) :
    wTestBit (rotate_left v n) j =
      wTestBit v ((j + (v.length * 8 - n % rotate_modulus (v.length * 8))) %
        (v.length * 8)) := by
  have hBpos : 0 < v.length * 8 := by
    rcases Nat.eq_zero_or_pos (v.length * 8) with h | h
    · omega
    · exact h
  have hm := rotate_modulus_pos hBpos
  have hmle := rotate_modulus_le hBpos
  have hn2 : n % rotate_modulus (v.length * 8) < v.length * 8 :=
    lt_of_lt_of_le (Nat.mod_lt _ hm) hmle
  rw [rotate_left]
  simp only [rotate]
  rw [if_neg hn]
  exact rotate_fold_testBit v hv rotate_left_dest_bit_idx _ _
    (Nat.pos_of_ne_zero hn) hn2 (fun i _ => rfl) j hj

theorem wTestBit_rotate_right {v : Word} (hv : IsBytes v) {n : Nat}
    (hn : n % rotate_modulus (v.length * 8) ≠ 0) {j : Nat} (hj : j < v.length * 8) :
    wTestBit (rotate_right v n) j =
      wTestBit v ((j + n % rotate_modulus (v.length * 8)) % (v.length * 8)) := by
  have hBpos : 0 < v.length * 8 := by
    rcases Nat.eq_zero_or_pos (v.length * 8) with h | h
    · omega
    · exact h
  have hm := rotate_modulus_pos hBpos
  have hmle := rotate_modulus_le hBpos
  have hn2 : n % rotate_modulus (v.length * 8) < v.length * 8 :=
    lt_of_lt_of_le (Nat.mod_lt _ hm) hmle
  have hn1 : 0 < n % rotate_modulus (v.length * 8) := Nat.pos_of_ne_zero hn
  rw [rotate_right]
  simp only [rotate]
  rw [if_neg hn]
  have hchar := rotate_fold_testBit v hv rotate_right_dest_bit_idx
    (n % rotate_modulus (v.length * 8)) (v.length * 8 - n % rotate_modulus (v.length * 8))
    (by omega) (by omega)
    (fun i hi => by
      rw [rotate_right_dest_bit_idx]
      split
      case isTrue hcase =>
        rw [Nat.mod_eq_of_lt (show i + (v.length * 8 - n % rotate_modulus (v.length * 8)) <
          v.length * 8 by omega)]
        omega
      case isFalse hcase =>
        have h2 : i + (v.length * 8 - n % rotate_modulus (v.length * 8)) =
            (i - n % rotate_modulus (v.length * 8)) + v.length * 8 := by omega
        rw [h2, Nat.add_mod_right, Nat.mod_eq_of_lt (show
          i - n % rotate_modulus (v.length * 8) < v.length * 8 by omega)]) j hj
  rw [hchar]
  have h3 : v.length * 8 - (v.length * 8 - n % rotate_modulus (v.length * 8)) =
      n % rotate_modulus (v.length * 8) := by omega
  rw [h3]

/-- Two equal-length byte words agreeing on every bit are equal. -/
theorem word_eq_of_testBit {a b : Word} (ha : IsBytes a) (hb : IsBytes b)
    (hlen : a.length = b.length)
    (h : ∀ j < a.length * 8, wTestBit a j = wTestBit b j) : a = b := by
  apply List.ext_getElem hlen
  intro d h1 h2
  apply Nat.eq_of_testBit_eq
  intro s
  rcases Nat.lt_or_ge s 8 with hs | hs
  · have hj : 8 * d + s < a.length * 8 := by omega
    have hbit := h (8 * d + s) hj
    rw [wTestBit, wTestBit] at hbit
    have hdiv : (8 * d + s) / 8 = d := by omega
    have hmod : (8 * d + s) % 8 = s := by omega
    rw [hdiv, hmod, List.getD_eq_getElem _ _ h1, List.getD_eq_getElem _ _ h2] at hbit
    exact hbit
  · have hpow : (256 : ℕ) ≤ 2 ^ s := by
      calc (256 : ℕ) = 2 ^ 8 := by norm_num
        _ ≤ 2 ^ s := Nat.pow_le_pow_right (by norm_num) hs
    rw [Nat.testBit_lt_two_pow (lt_of_lt_of_le (ha _ (List.getElem_mem h1)) hpow),
      Nat.testBit_lt_two_pow (lt_of_lt_of_le (hb _ (List.getElem_mem h2)) hpow)]

/-- Rotating right undoes rotating left (same word length, same amount). -/
theorem rotate_right_rotate_left {v : Word} (hv : IsBytes v) (n : Nat) :
    rotate_right (rotate_left v n) n = v := by
  by_cases h0 : n % rotate_modulus (v.length * 8) = 0
  · rw [rotate_left, rotate_of_mod_zero _ h0, rotate_right, rotate_of_mod_zero _ h0]
  · rcases Nat.eq_zero_or_pos v.length with hL | hL
    · have hnil : v = [] := List.length_eq_zero.mp hL
      subst hnil
      rw [rotate_left, rotate_nil, rotate_right, rotate_nil]
    · have hBpos : 0 < v.length * 8 := by omega
      have hmpos := rotate_modulus_pos hBpos
      have hmle := rotate_modulus_le hBpos
      have hn1 : 0 < n % rotate_modulus (v.length * 8) := Nat.pos_of_ne_zero h0
      have hn2 : n % rotate_modulus (v.length * 8) < v.length * 8 :=
        lt_of_lt_of_le (Nat.mod_lt _ hmpos) hmle
      have hmidlen : (rotate_left v n).length = v.length := length_rotate v n _
      have hmidbytes : IsBytes (rotate_left v n) := isBytes_rotate hv n _
      have houtlen : (rotate_right (rotate_left v n) n).length = v.length := by
        rw [rotate_right, length_rotate, hmidlen]
      apply word_eq_of_testBit (isBytes_rotate hmidbytes n _) hv houtlen
      intro j hj
      have hlen2 : (rotate (rotate_left v n) n rotate_right_dest_bit_idx).length = v.length :=
        houtlen
      have hjv : j < v.length * 8 := by omega
      show wTestBit (rotate_right (rotate_left v n) n) j = wTestBit v j
      have h1 := @wTestBit_rotate_right (rotate_left v n) hmidbytes
        n (by rw [hmidlen]; exact h0) j (by rw [hmidlen]; exact hjv)
      rw [hmidlen] at h1
      rw [h1]
      have hj2 : (j + n % rotate_modulus (v.length * 8)) % (v.length * 8) < v.length * 8 :=
        Nat.mod_lt _ hBpos
      rw [wTestBit_rotate_left hv h0 hj2]
      congr 1
      rw [Nat.mod_add_mod]
      have harith : j + n % rotate_modulus (v.length * 8) +
          (v.length * 8 - n % rotate_modulus (v.length * 8)) = j + v.length * 8 := by omega
      rw [harith, Nat.add_mod_right]
      exact Nat.mod_eq_of_lt hjv

/-- Rotating left undoes rotating right (same word length, same amount). -/
theorem rotate_left_rotate_right {v : Word} (hv : IsBytes v) (n : Nat) :
    rotate_left (rotate_right v n) n = v := by
  by_cases h0 : n % rotate_modulus (v.length * 8) = 0
  · rw [rotate_right, rotate_of_mod_zero _ h0, rotate_left, rotate_of_mod_zero _ h0]
  · rcases Nat.eq_zero_or_pos v.length with hL | hL
    · have hnil : v = [] := List.length_eq_zero.mp hL
      subst hnil
      rw [rotate_right, rotate_nil, rotate_left, rotate_nil]
    · have hBpos : 0 < v.length * 8 := by omega
      have hmpos := rotate_modulus_pos hBpos
      have hmle := rotate_modulus_le hBpos
      have hn1 : 0 < n % rotate_modulus (v.length * 8) := Nat.pos_of_ne_zero h0
      have hn2 : n % rotate_modulus (v.length * 8) < v.length * 8 :=
        lt_of_lt_of_le (Nat.mod_lt _ hmpos) hmle
      have hmidlen : (rotate_right v n).length = v.length := length_rotate v n _
      have hmidbytes : IsBytes (rotate_right v n) := isBytes_rotate hv n _
      have houtlen : (rotate_left (rotate_right v n) n).length = v.length := by
        rw [rotate_left, length_rotate, hmidlen]
      apply word_eq_of_testBit (isBytes_rotate hmidbytes n _) hv houtlen
      intro j hj
      have hlen2 : (rotate (rotate_right v n) n rotate_left_dest_bit_idx).length = v.length :=
        houtlen
      have hjv : j < v.length * 8 := by omega
      show wTestBit (rotate_left (rotate_right v n) n) j = wTestBit v j
      have h1 := @wTestBit_rotate_left (rotate_right v n) hmidbytes
        n (by rw [hmidlen]; exact h0) j (by rw [hmidlen]; exact hjv)
      rw [hmidlen] at h1
      rw [h1]
      have hj2 : (j + (v.length * 8 - n % rotate_modulus (v.length * 8))) % (v.length * 8) <
          v.length * 8 := Nat.mod_lt _ hBpos
      rw [wTestBit_rotate_right hv h0 hj2]
      congr 1
      rw [Nat.mod_add_mod]
      have harith : j + (v.length * 8 - n % rotate_modulus (v.length * 8)) +
          n % rotate_modulus (v.length * 8) = j + v.length * 8 := by omega
      rw [harith, Nat.add_mod_right]
      exact Nat.mod_eq_of_lt hjv

/-! ### Well-formed words and the cipher round inversion -/

theorem goodWord_zeroWord (L : Nat) : GoodWord L (zeroWord L) := by
  refine ⟨List.length_replicate _ _, fun x hx => ?_⟩
  rw [List.eq_of_mem_replicate hx]
  norm_num

theorem goodWord_wrapping_add {L : Nat} {a b : Word} (ha : GoodWord L a) (hb : GoodWord L b) :
    GoodWord L (wrapping_add a b) :=
  ⟨by rw [length_wrapping_add, ha.1, hb.1, Nat.min_self], isBytes_wrapping_add a b⟩

theorem goodWord_wrapping_sub {L : Nat} {a b : Word} (ha : GoodWord L a) (hb : GoodWord L b) :
    GoodWord L (wrapping_sub a b) :=
  ⟨by rw [length_wrapping_sub, ha.1, hb.1, Nat.min_self], isBytes_wrapping_sub a b⟩

theorem goodWord_bitxor {L : Nat} {a b : Word} (ha : GoodWord L a) (hb : GoodWord L b) :
    GoodWord L (bitxor a b) :=
  ⟨by rw [length_bitxor, ha.1, hb.1, Nat.min_self], isBytes_bitxor ha.2 hb.2⟩

theorem goodWord_rotate_left {L : Nat} {a : Word} (ha : GoodWord L a) (n : Nat) :
    GoodWord L (rotate_left a n) :=
  ⟨by rw [rotate_left, length_rotate, ha.1], isBytes_rotate ha.2 n _⟩

theorem goodWord_rotate_right {L : Nat} {a : Word} (ha : GoodWord L a) (n : Nat) :
    GoodWord L (rotate_right a n) :=
  ⟨by rw [rotate_right, length_rotate, ha.1], isBytes_rotate ha.2 n _⟩

theorem goodWord_getD {L : Nat} {table : List Word} (ht : ∀ w ∈ table, GoodWord L w)
    (k : Nat) : GoodWord L (table.getD k (zeroWord L)) := by
  rcases Nat.lt_or_ge k table.length with h | h
  · rw [List.getD_eq_getElem _ _ h]
    exact ht _ (List.getElem_mem h)
  · rw [List.getD_eq_getElem?_getD, List.getElem?_eq_none (by simpa using h)]
    exact goodWord_zeroWord L

theorem goodWords_set {L : Nat} {l : List Word} {n : Nat} {w : Word}
    (hl : ∀ z ∈ l, GoodWord L z) (hw : GoodWord L w) : ∀ z ∈ l.set n w, GoodWord L z :=
  fun z hz => (List.mem_or_eq_of_mem_set hz).elim (hl z) (fun h => h ▸ hw)

/-- Undoing one half-round: `xor`-then-rotate-then-add is reversed by
subtract-then-unrotate-then-`xor`. -/
theorem half_round_inverse {L : Nat} {u v k : Word} (hu : GoodWord L u) (hv : GoodWord L v)
    (hk : GoodWord L k) (n : Nat) :
    bitxor (rotate_right (wrapping_sub (wrapping_add (rotate_left (bitxor u v) n) k) k) n) v
      = u := by
  rw [wrapping_sub_wrapping_add
      (by rw [rotate_left, length_rotate, length_bitxor, hu.1, hv.1, Nat.min_self, hk.1])
      (goodWord_rotate_left (goodWord_bitxor hu hv) n).2 hk.2,
    rotate_right_rotate_left (isBytes_bitxor hu.2 hv.2) n,
    bitxor_cancel (by rw [hu.1, hv.1])]

/-- Redoing one half-round: subtract-then-unrotate-then-`xor` is reversed by
`xor`-then-rotate-then-add. -/
theorem half_round_inverse2 {L : Nat} {u v k : Word} (hu : GoodWord L u) (hv : GoodWord L v)
    (hk : GoodWord L k) (n : Nat) :
    wrapping_add
      (rotate_left (bitxor (bitxor (rotate_right (wrapping_sub u k) n) v) v) n) k = u := by
  rw [bitxor_cancel (by
      rw [rotate_right, length_rotate, length_wrapping_sub, hu.1, hk.1, Nat.min_self, hv.1]),
    rotate_left_rotate_right (isBytes_wrapping_sub u k) n,
    wrapping_add_wrapping_sub (by rw [hu.1, hk.1]) hu.2 hk.2]

theorem enc_round_good {L : Nat} {table : List Word} (ht : ∀ w ∈ table, GoodWord L w)
    (i : Nat) {a b : Word} (ha : GoodWord L a) (hb : GoodWord L b) :
    GoodWord L (enc_round L table i (a, b)).1 ∧ GoodWord L (enc_round L table i (a, b)).2 := by
  simp only [enc_round]
  exact ⟨goodWord_wrapping_add (goodWord_rotate_left (goodWord_bitxor ha hb) _)
      (goodWord_getD ht _),
    goodWord_wrapping_add (goodWord_rotate_left (goodWord_bitxor hb
      (goodWord_wrapping_add (goodWord_rotate_left (goodWord_bitxor ha hb) _)
        (goodWord_getD ht _))) _) (goodWord_getD ht _)⟩

theorem dec_round_good {L : Nat} {table : List Word} (ht : ∀ w ∈ table, GoodWord L w)
    (i : Nat) {a b : Word} (ha : GoodWord L a) (hb : GoodWord L b) :
    GoodWord L (dec_round L table i (a, b)).1 ∧ GoodWord L (dec_round L table i (a, b)).2 := by
  simp only [dec_round]
  refine ⟨?_, ?_⟩
  · exact goodWord_bitxor (goodWord_rotate_right (goodWord_wrapping_sub ha
      (goodWord_getD ht _)) _) (goodWord_bitxor (goodWord_rotate_right
        (goodWord_wrapping_sub hb (goodWord_getD ht _)) _) ha)
  · exact goodWord_bitxor (goodWord_rotate_right (goodWord_wrapping_sub hb
      (goodWord_getD ht _)) _) ha

theorem dec_round_enc_round {L : Nat} {table : List Word} (ht : ∀ w ∈ table, GoodWord L w)
    (i : Nat) {a b : Word} (ha : GoodWord L a) (hb : GoodWord L b) :
    dec_round L table i (enc_round L table i (a, b)) = (a, b) := by
  simp only [enc_round, dec_round]
  have ha2 : GoodWord L (wrapping_add (rotate_left (bitxor a b) (to_u128_word b))
      (table.getD (2 * i) (zeroWord L))) :=
    goodWord_wrapping_add (goodWord_rotate_left (goodWord_bitxor ha hb) _) (goodWord_getD ht _)
  rw [half_round_inverse hb ha2 (goodWord_getD ht _)]
  rw [half_round_inverse ha hb (goodWord_getD ht _)]

theorem enc_round_dec_round {L : Nat} {table : List Word} (ht : ∀ w ∈ table, GoodWord L w)
    (i : Nat) {a b : Word} (ha : GoodWord L a) (hb : GoodWord L b) :
    enc_round L table i (dec_round L table i (a, b)) = (a, b) := by
  simp only [enc_round, dec_round]
  have hb2 : GoodWord L (bitxor (rotate_right (wrapping_sub b
      (table.getD (2 * i + 1) (zeroWord L))) (to_u128_word a)) a) :=
    goodWord_bitxor (goodWord_rotate_right (goodWord_wrapping_sub hb (goodWord_getD ht _)) _) ha
  rw [half_round_inverse2 ha hb2 (goodWord_getD ht _)]
  rw [half_round_inverse2 hb ha (goodWord_getD ht _)]

theorem enc_rounds_good {L : Nat} {table : List Word} (ht : ∀ w ∈ table, GoodWord L w)
    (r : Nat) {ab : Word × Word} (ha : GoodWord L ab.1) (hb : GoodWord L ab.2) :
    GoodWord L (enc_rounds L table r ab).1 ∧ GoodWord L (enc_rounds L table r ab).2 := by
  induction r with
  | zero => exact ⟨ha, hb⟩
  | succ r ih =>
      simp only [enc_rounds]
      have hpair : enc_rounds L table r ab =
          ((enc_rounds L table r ab).1, (enc_rounds L table r ab).2) := rfl
      rw [hpair]
      exact enc_round_good ht (r + 1) ih.1 ih.2

theorem dec_rounds_good {L : Nat} {table : List Word} (ht : ∀ w ∈ table, GoodWord L w)
    (r : Nat) {ab : Word × Word} (ha : GoodWord L ab.1) (hb : GoodWord L ab.2) :
    GoodWord L (dec_rounds L table r ab).1 ∧ GoodWord L (dec_rounds L table r ab).2 := by
  induction r generalizing ab with
  | zero => exact ⟨ha, hb⟩
  | succ r ih =>
      simp only [dec_rounds]
      have hpair : ab = (ab.1, ab.2) := rfl
      rw [hpair]
      have hstep := dec_round_good ht (r + 1) ha hb
      exact ih hstep.1 hstep.2

theorem dec_rounds_enc_rounds {L : Nat} {table : List Word} (ht : ∀ w ∈ table, GoodWord L w)
    (r : Nat) {ab : Word × Word} (ha : GoodWord L ab.1) (hb : GoodWord L ab.2) :
    dec_rounds L table r (enc_rounds L table r ab) = ab := by
  induction r with
  | zero => rfl
  | succ r ih =>
      simp only [enc_rounds, dec_rounds]
      have hgood := enc_rounds_good ht r ha hb
      have hpair : enc_rounds L table r ab =
          ((enc_rounds L table r ab).1, (enc_rounds L table r ab).2) := rfl
      rw [hpair, dec_round_enc_round ht (r + 1) hgood.1 hgood.2, ← hpair, ih]

theorem enc_rounds_dec_rounds {L : Nat} {table : List Word} (ht : ∀ w ∈ table, GoodWord L w)
    (r : Nat) {ab : Word × Word} (ha : GoodWord L ab.1) (hb : GoodWord L ab.2) :
    enc_rounds L table r (dec_rounds L table r ab) = ab := by
  induction r generalizing ab with
  | zero => rfl
  | succ r ih =>
      simp only [enc_rounds, dec_rounds]
      have hpair : ab = (ab.1, ab.2) := rfl
      have hstep := dec_round_good ht (r + 1) ha hb
      rw [hpair]
      have hdec : dec_round L table (r + 1) (ab.1, ab.2) =
          ((dec_round L table (r + 1) (ab.1, ab.2)).1,
            (dec_round L table (r + 1) (ab.1, ab.2)).2) := rfl
      rw [hdec] at hstep ⊢
      rw [ih hstep.1 hstep.2, ← hdec, ← hpair]
      exact enc_round_dec_round ht (r + 1) ha hb

theorem goodWord_take {L : Nat} {pt : Word} (hlen : pt.length = 2 * L) (hb : IsBytes pt) :
    GoodWord L (pt.take L) := by
  refine ⟨by rw [List.length_take, hlen]; omega, fun z hz => hb z (List.mem_of_mem_take hz)⟩

theorem goodWord_drop {L : Nat} {pt : Word} (hlen : pt.length = 2 * L) (hb : IsBytes pt) :
    GoodWord L (pt.drop L) := by
  refine ⟨by rw [List.length_drop, hlen]; omega, fun z hz => hb z (List.mem_of_mem_drop hz)⟩

/-- Decryption undoes encryption for any table of well-formed subkey words. -/
theorem decrypt_encrypt {L R : Nat} {table : List Word} (ht : ∀ w ∈ table, GoodWord L w)
    {pt : List Nat} (hlen : pt.length = 2 * L) (hbytes : IsBytes pt) :
    decrypt L R table (encrypt L R table pt) = pt := by
  simp only [encrypt, decrypt]
  have ha0 := goodWord_take hlen hbytes
  have hb0 := goodWord_drop hlen hbytes
  have ha1 : GoodWord L (wrapping_add (pt.take L) (table.getD 0 (zeroWord L))) :=
    goodWord_wrapping_add ha0 (goodWord_getD ht 0)
  have hb1 : GoodWord L (wrapping_add (pt.drop L) (table.getD 1 (zeroWord L))) :=
    goodWord_wrapping_add hb0 (goodWord_getD ht 1)
  have hab := @enc_rounds_good L table ht R
    (wrapping_add (pt.take L) (table.getD 0 (zeroWord L)),
      wrapping_add (pt.drop L) (table.getD 1 (zeroWord L))) ha1 hb1
  have htake : ((enc_rounds L table R (wrapping_add (pt.take L) (table.getD 0 (zeroWord L)),
      wrapping_add (pt.drop L) (table.getD 1 (zeroWord L)))).1 ++
        (enc_rounds L table R (wrapping_add (pt.take L) (table.getD 0 (zeroWord L)),
      wrapping_add (pt.drop L) (table.getD 1 (zeroWord L)))).2).take L =
      (enc_rounds L table R (wrapping_add (pt.take L) (table.getD 0 (zeroWord L)),
        wrapping_add (pt.drop L) (table.getD 1 (zeroWord L)))).1 :=
    List.take_left' hab.1.1
  have hdrop : ((enc_rounds L table R (wrapping_add (pt.take L) (table.getD 0 (zeroWord L)),
      wrapping_add (pt.drop L) (table.getD 1 (zeroWord L)))).1 ++
        (enc_rounds L table R (wrapping_add (pt.take L) (table.getD 0 (zeroWord L)),
      wrapping_add (pt.drop L) (table.getD 1 (zeroWord L)))).2).drop L =
      (enc_rounds L table R (wrapping_add (pt.take L) (table.getD 0 (zeroWord L)),
        wrapping_add (pt.drop L) (table.getD 1 (zeroWord L)))).2 :=
    List.drop_left' hab.1.1
  rw [htake, hdrop]
  have hpair : ((enc_rounds L table R (wrapping_add (pt.take L) (table.getD 0 (zeroWord L)),
      wrapping_add (pt.drop L) (table.getD 1 (zeroWord L)))).1,
        (enc_rounds L table R (wrapping_add (pt.take L) (table.getD 0 (zeroWord L)),
      wrapping_add (pt.drop L) (table.getD 1 (zeroWord L)))).2) =
      enc_rounds L table R (wrapping_add (pt.take L) (table.getD 0 (zeroWord L)),
        wrapping_add (pt.drop L) (table.getD 1 (zeroWord L))) := rfl
  rw [hpair, dec_rounds_enc_rounds ht R ha1 hb1]
  rw [wrapping_sub_wrapping_add (by rw [ha0.1, (goodWord_getD ht 0).1]) ha0.2
    (goodWord_getD ht 0).2]
  rw [wrapping_sub_wrapping_add (by rw [hb0.1, (goodWord_getD ht 1).1]) hb0.2
    (goodWord_getD ht 1).2]
  exact List.take_append_drop L pt

/-- Encryption undoes decryption for any table of well-formed subkey words. -/
theorem encrypt_decrypt {L R : Nat} {table : List Word} (ht : ∀ w ∈ table, GoodWord L w)
    {ct : List Nat} (hlen : ct.length = 2 * L) (hbytes : IsBytes ct) :
    encrypt L R table (decrypt L R table ct) = ct := by
  simp only [encrypt, decrypt]
  have ha0 := goodWord_take hlen hbytes
  have hb0 := goodWord_drop hlen hbytes
  have hab := @dec_rounds_good L table ht R (ct.take L, ct.drop L) ha0 hb0
  have hsa : GoodWord L (wrapping_sub (dec_rounds L table R (ct.take L, ct.drop L)).1
      (table.getD 0 (zeroWord L))) := goodWord_wrapping_sub hab.1 (goodWord_getD ht 0)
  have hsb : GoodWord L (wrapping_sub (dec_rounds L table R (ct.take L, ct.drop L)).2
      (table.getD 1 (zeroWord L))) := goodWord_wrapping_sub hab.2 (goodWord_getD ht 1)
  rw [List.take_left' hsa.1, List.drop_left' hsa.1]
  rw [wrapping_add_wrapping_sub (by rw [hab.1.1, (goodWord_getD ht 0).1]) hab.1.2
    (goodWord_getD ht 0).2]
  rw [wrapping_add_wrapping_sub (by rw [hab.2.1, (goodWord_getD ht 1).1]) hab.2.2
    (goodWord_getD ht 1).2]
  have hpair : ((dec_rounds L table R (ct.take L, ct.drop L)).1,
      (dec_rounds L table R (ct.take L, ct.drop L)).2) =
      dec_rounds L table R (ct.take L, ct.drop L) := rfl
  rw [hpair, enc_rounds_dec_rounds ht R ha0 hb0]
  exact List.take_append_drop L ct

/-! ### The key schedule produces well-formed words -/

theorem length_from_slice (N : Nat) (s : List Nat) : (from_slice N s).length = N := by
  rw [from_slice]
  rw [List.length_append, List.length_take, List.length_replicate]
  omega

theorem isBytes_from_slice {s : List Nat} (hs : IsBytes s) (N : Nat) :
    IsBytes (from_slice N s) := by
  intro z hz
  rw [from_slice] at hz
  rcases List.mem_append.mp hz with h | h
  · exact hs z (List.mem_of_mem_take h)
  · rw [List.eq_of_mem_replicate h]
    norm_num

theorem goodWord_from_slice {s : List Nat} (hs : IsBytes s) (N : Nat) :
    GoodWord N (from_slice N s) := ⟨length_from_slice N s, isBytes_from_slice hs N⟩

theorem isBytes_to_le_bytes (v : Nat) : IsBytes (to_le_bytes v) := by
  intro z hz
  rw [to_le_bytes] at hz
  rcases List.mem_map.mp hz with ⟨i, _, rfl⟩
  exact Nat.mod_lt _ (by norm_num)

theorem goodWord_p {WBIT L : Nat} {pw : Word} (h : p WBIT L = some pw) : GoodWord L pw := by
  rw [p] at h
  rcases Option.map_eq_some'.mp h with ⟨r, _, hr⟩
  rw [← hr]
  exact goodWord_from_slice (isBytes_to_le_bytes _) L

theorem goodWord_q {WBIT L : Nat} {qw : Word} (h : q WBIT L = some qw) : GoodWord L qw := by
  rw [q] at h
  rcases Option.map_eq_some'.mp h with ⟨r, _, hr⟩
  rw [← hr]
  exact goodWord_from_slice (isBytes_to_le_bytes _) L

theorem goodWords_key_as_words_init {L KAW : Nat} {key : List Nat} (hkey : IsBytes key) :
    ∀ w ∈ key_as_words_init L KAW key, GoodWord L w := by
  rw [key_as_words_init]
  have main : ∀ (is : List Nat) (kw : List Word), (∀ w ∈ kw, GoodWord L w) →
      ∀ w ∈ is.foldl (fun kw idx => kw.set (idx / L)
        (wrapping_add (rotate_left (kw.getD (idx / L) (zeroWord L)) 8)
          (from_slice L [key.getD idx 0]))) kw, GoodWord L w := by
    intro is
    induction is with
    | nil => intro kw h; exact h
    | cons i is ih =>
        intro kw h
        rw [List.foldl_cons]
        apply ih
        apply goodWords_set h
        refine goodWord_wrapping_add (goodWord_rotate_left (goodWord_getD h _) 8)
          (goodWord_from_slice ?_ L)
        intro z hz
        rcases List.mem_singleton.mp hz with rfl
        exact getD_lt_of_isBytes hkey i
  exact main _ _ (fun w hw => by
    rw [List.eq_of_mem_replicate hw]
    exact goodWord_zeroWord L)

theorem goodWords_expanded_key_table_tail {L : Nat} {qw : Word} (hq : GoodWord L qw) :
    ∀ (k : Nat) {prev : Word}, GoodWord L prev →
      ∀ w ∈ expanded_key_table_tail qw prev k, GoodWord L w := by
  intro k
  induction k with
  | zero =>
      intro prev _ w hw
      simp [expanded_key_table_tail] at hw
  | succ k ih =>
      intro prev hprev w hw
      simp only [expanded_key_table_tail] at hw
      rcases List.mem_cons.mp hw with rfl | hw
      · exact goodWord_wrapping_add hprev hq
      · exact ih (goodWord_wrapping_add hprev hq) w hw

theorem goodWords_expanded_key_table_init {L T : Nat} {pw qw : Word}
    (hp : GoodWord L pw) (hq : GoodWord L qw) :
    ∀ w ∈ expanded_key_table_init T pw qw, GoodWord L w := by
  rw [expanded_key_table_init]
  split
  · simp
  · intro w hw
    rcases List.mem_cons.mp hw with rfl | hw
    · exact hp
    · exact goodWords_expanded_key_table_tail hq _ hp w hw

theorem mix_step_good {L : Nat} {st : MixState} (h1 : ∀ w ∈ st.table, GoodWord L w)
    (h2 : ∀ w ∈ st.key_words, GoodWord L w) (h3 : GoodWord L st.last_expanded_key_word)
    (h4 : GoodWord L st.last_key_word) :
    (∀ w ∈ (mix_step L st).table, GoodWord L w) ∧
      (∀ w ∈ (mix_step L st).key_words, GoodWord L w) ∧
      GoodWord L (mix_step L st).last_expanded_key_word ∧
      GoodWord L (mix_step L st).last_key_word := by
  have hek : GoodWord L (rotate_left (wrapping_add (wrapping_add
      (st.table.getD st.expanded_key_word_idx (zeroWord L)) st.last_expanded_key_word)
      st.last_key_word) 3) :=
    goodWord_rotate_left
      (goodWord_wrapping_add (goodWord_wrapping_add (goodWord_getD h1 _) h3) h4) 3
  have hkw : GoodWord L (rotate_left (wrapping_add (wrapping_add
      (st.key_words.getD st.key_word_idx (zeroWord L))
      (rotate_left (wrapping_add (wrapping_add
        (st.table.getD st.expanded_key_word_idx (zeroWord L)) st.last_expanded_key_word)
        st.last_key_word) 3)) st.last_key_word)
      (to_u128_word (wrapping_add (rotate_left (wrapping_add (wrapping_add
        (st.table.getD st.expanded_key_word_idx (zeroWord L)) st.last_expanded_key_word)
        st.last_key_word) 3) st.last_key_word))) :=
    goodWord_rotate_left
      (goodWord_wrapping_add (goodWord_wrapping_add (goodWord_getD h2 _) hek) h4) _
  simp only [mix_step]
  exact ⟨goodWords_set h1 hek, goodWords_set h2 hkw, hek, hkw⟩

theorem mix_loop_good {L : Nat} : ∀ (k : Nat) (st : MixState),
    (∀ w ∈ st.table, GoodWord L w) → (∀ w ∈ st.key_words, GoodWord L w) →
    GoodWord L st.last_expanded_key_word → GoodWord L st.last_key_word →
    ∀ w ∈ (mix_loop L k st).table, GoodWord L w := by
  intro k
  induction k with
  | zero => intro st h1 _ _ _; exact h1
  | succ k ih =>
      intro st h1 h2 h3 h4
      have h := mix_step_good h1 h2 h3 h4
      exact ih _ h.1 h.2.1 h.2.2.1 h.2.2.2

/-- Every word in a successfully expanded key table is a well-formed word of
the configured byte length. -/
theorem expand_key_good {WBIT L KAW T : Nat} {key : List Nat} {S : List Word}
    (hkey : IsBytes key) (h : expand_key WBIT L KAW T key = some S) :
    ∀ w ∈ S, GoodWord L w := by
  rw [expand_key] at h
  cases hp : p WBIT L with
  | none => rw [hp] at h; simp at h
  | some pw =>
      rw [hp] at h
      cases hq : q WBIT L with
      | none => rw [hq] at h; simp at h
      | some qw =>
          rw [hq] at h
          simp only [Option.some_bind, Option.some_inj] at h
          rw [← h]
          exact mix_loop_good _ _
            (goodWords_expanded_key_table_init (goodWord_p hp) (goodWord_q hq))
            (goodWords_key_as_words_init hkey)
            (goodWord_zeroWord L) (goodWord_zeroWord L)

theorem length_encrypt {L R : Nat} {table : List Word} (ht : ∀ w ∈ table, GoodWord L w)
    {block : List Nat} (hlen : block.length = 2 * L) (hb : IsBytes block) :
    (encrypt L R table block).length = 2 * L := by
  simp only [encrypt]
  rw [List.length_append]
  have hgood := @enc_rounds_good L table ht R
    (wrapping_add (block.take L) (table.getD 0 (zeroWord L)),
      wrapping_add (block.drop L) (table.getD 1 (zeroWord L)))
    (goodWord_wrapping_add (goodWord_take hlen hb) (goodWord_getD ht 0))
    (goodWord_wrapping_add (goodWord_drop hlen hb) (goodWord_getD ht 1))
  rw [hgood.1.1, hgood.2.1]
  omega

theorem length_decrypt {L R : Nat} {table : List Word} (ht : ∀ w ∈ table, GoodWord L w)
    {block : List Nat} (hlen : block.length = 2 * L) (hb : IsBytes block) :
    (decrypt L R table block).length = 2 * L := by
  simp only [decrypt]
  rw [List.length_append]
  have hgood := @dec_rounds_good L table ht R (block.take L, block.drop L)
    (goodWord_take hlen hb) (goodWord_drop hlen hb)
  rw [(goodWord_wrapping_sub hgood.1 (goodWord_getD ht 0)).1,
    (goodWord_wrapping_sub hgood.2 (goodWord_getD ht 1)).1]
  omega

/-! ### The naive reference rotation -/

theorem bitsVal_lt (l : List Bool) : bitsVal l < 2 ^ l.length := by
  induction l with
  | nil => simp [bitsVal]
  | cons b bs ih =>
      simp only [bitsVal, List.length_cons, pow_succ]
      have hb : (if b then 1 else 0 : ℕ) ≤ 1 := by split <;> omega
      omega

theorem testBit_bitsVal (l : List Bool) : ∀ (s : Nat),
    Nat.testBit (bitsVal l) s = l.getD s false := by
  induction l with
  | nil =>
      intro s
      simp [bitsVal, Nat.zero_testBit]
  | cons b bs ih =>
      intro s
      cases s with
      | zero =>
          simp only [bitsVal, List.getD_cons_zero, Nat.testBit_zero]
          rcases b with _ | _ <;> simp
      | succ s =>
          simp only [bitsVal, List.getD_cons_succ, Nat.testBit_succ]
          have hdiv : ((if b then 1 else 0) + 2 * bitsVal bs) / 2 = bitsVal bs := by
            split <;> omega
          rw [hdiv, ih]

theorem length_ref_rotate (v : Word) (D : Nat) : (ref_rotate v D).length = v.length := by
  simp [ref_rotate]

theorem isBytes_ref_rotate (v : Word) (D : Nat) : IsBytes (ref_rotate v D) := by
  intro z hz
  rw [ref_rotate] at hz
  rcases List.mem_map.mp hz with ⟨d, _, rfl⟩
  have := bitsVal_lt ((List.range 8).map fun s =>
    wTestBit v ((8 * d + s + (v.length * 8 - D)) % (v.length * 8)))
  simpa using this

theorem wTestBit_ref_rotate {v : Word} (D : Nat) {j : Nat} (hj : j < v.length * 8) :
    wTestBit (ref_rotate v D) j =
      wTestBit v ((j + (v.length * 8 - D)) % (v.length * 8)) := by
  rw [wTestBit, ref_rotate]
  have hd : j / 8 < v.length := by omega
  rw [List.getD_eq_getElem _ _ (by simpa using hd), List.getElem_map, List.getElem_range,
    testBit_bitsVal]
  have hs : j % 8 < 8 := Nat.mod_lt _ (by norm_num)
  rw [List.getD_eq_getElem _ _ (by simpa using hs), List.getElem_map, List.getElem_range]
  rw [Nat.div_add_mod]

/-! ### Evaluating the rational constants -/

theorem rat_to_integer_eq_floor (x : ℚ) : rat_to_integer x = ⌊x⌋ := by
  rw [rat_to_integer, Rat.floor_def]

theorem rat_to_u128_eq_some {x : ℚ} {n : Nat} (h1 : (n : ℚ) ≤ x) (h2 : x < n + 1)
    (h3 : n < 2 ^ 128) : rat_to_u128 x = some n := by
  have hfl : ⌊x⌋ = (n : ℤ) := Int.floor_eq_iff.mpr ⟨by exact_mod_cast h1, by push_cast; exact h2⟩
  rw [rat_to_u128, rat_to_integer_eq_floor, hfl,
    if_pos ⟨Int.natCast_nonneg n, by exact_mod_cast h3⟩, Int.toNat_natCast]

/-- The exact value of the 34-term rational series for `e`. -/
theorem approximate_e_34_eq : approximate_e 34 =
    (621150118261963620821088018140342027 : ℚ) / 228508358389786486724163010560000000 := by
  have hr : List.range 34 = [0, 1, 2, 3, 4, 5, 6, 7, 8, 9, 10, 11, 12, 13, 14, 15, 16, 17, 18, 19, 20, 21, 22, 23, 24, 25, 26, 27, 28, 29, 30, 31, 32, 33] := by decide
  rw [approximate_e, hr]
  simp only [List.foldl_cons, List.foldl_nil]
  norm_num [show factorial 0 = 1 from by decide, show factorial 1 = 1 from by decide, show factorial 2 = 2 from by decide, show factorial 3 = 6 from by decide, show factorial 4 = 24 from by decide, show factorial 5 = 120 from by decide, show factorial 6 = 720 from by decide, show factorial 7 = 5040 from by decide, show factorial 8 = 40320 from by decide, show factorial 9 = 362880 from by decide, show factorial 10 = 3628800 from by decide, show factorial 11 = 39916800 from by decide, show factorial 12 = 479001600 from by decide, show factorial 13 = 6227020800 from by decide, show factorial 14 = 87178291200 from by decide, show factorial 15 = 1307674368000 from by decide, show factorial 16 = 20922789888000 from by decide, show factorial 17 = 355687428096000 from by decide, show factorial 18 = 6402373705728000 from by decide, show factorial 19 = 121645100408832000 from by decide, show factorial 20 = 2432902008176640000 from by decide, show factorial 21 = 51090942171709440000 from by decide, show factorial 22 = 1124000727777607680000 from by decide, show factorial 23 = 25852016738884976640000 from by decide, show factorial 24 = 620448401733239439360000 from by decide, show factorial 25 = 15511210043330985984000000 from by decide, show factorial 26 = 403291461126605635584000000 from by decide, show factorial 27 = 10888869450418352160768000000 from by decide, show factorial 28 = 304888344611713860501504000000 from by decide, show factorial 29 = 8841761993739701954543616000000 from by decide, show factorial 30 = 265252859812191058636308480000000 from by decide, show factorial 31 = 8222838654177922817725562880000000 from by decide, show factorial 32 = 263130836933693530167218012160000000 from by decide, show factorial 33 = 8683317618811886495518194401280000000 from by decide]

/-- The exact value of the 93-iteration continued fraction for the golden ratio. -/
theorem approximate_golden_ratio_93_eq : approximate_golden_ratio 93 =
    (31940434634990099905 : ℚ) / 19740274219868223167 := by
  have hr : List.range 93 = [0, 1, 2, 3, 4, 5, 6, 7, 8, 9, 10, 11, 12, 13, 14, 15, 16, 17, 18, 19, 20, 21, 22, 23, 24, 25, 26, 27, 28, 29, 30, 31, 32, 33, 34, 35, 36, 37, 38, 39, 40, 41, 42, 43, 44, 45, 46, 47, 48, 49, 50, 51, 52, 53, 54, 55, 56, 57, 58, 59, 60, 61, 62, 63, 64, 65, 66, 67, 68, 69, 70, 71, 72, 73, 74, 75, 76, 77, 78, 79, 80, 81, 82, 83, 84, 85, 86, 87, 88, 89, 90, 91, 92] := by decide
  rw [approximate_golden_ratio, hr]
  simp only [List.foldl_cons, List.foldl_nil]
  norm_num

theorem p_eval (n W : Nat) (h1 : (n : ℚ) ≤ (approximate_e 34 - 2) * 2 ^ W)
    (h2 : (approximate_e 34 - 2) * 2 ^ W < n + 1) (h3 : n < 2 ^ 128) (L : Nat) :
    p W L = some (from_slice L (to_le_bytes (odd n))) := by
  rw [p, rat_to_u128_eq_some h1 h2 h3, Option.map_some']

theorem q_eval (n W : Nat)
    (h1 : (n : ℚ) ≤ (approximate_golden_ratio 93 - 1) * 2 ^ W)
    (h2 : (approximate_golden_ratio 93 - 1) * 2 ^ W < n + 1) (h3 : n < 2 ^ 128) (L : Nat) :
    q W L = some (from_slice L (to_le_bytes (odd n))) := by
  rw [q, rat_to_u128_eq_some h1 h2 h3, Option.map_some']

theorem p_spec_trunc_eval (n W : Nat)
    (h1 : (n : ℚ) ≤ (approximate_e 34 - 2) * 2 ^ W)
    (h2 : (approximate_e 34 - 2) * 2 ^ W < n + 1) :
    p_spec_trunc W = le_bytes (W / 8) (odd n) := by
  have hfl : ⌊(approximate_e 34 - 2) * 2 ^ W⌋ = (n : ℤ) :=
    Int.floor_eq_iff.mpr ⟨by exact_mod_cast h1, by push_cast; exact h2⟩
  rw [p_spec_trunc, hfl, Int.toNat_natCast]

theorem p_spec_round_eval (n W : Nat)
    (h1 : (n : ℚ) ≤ (approximate_e 34 - 2) * 2 ^ W + 1 / 2)
    (h2 : (approximate_e 34 - 2) * 2 ^ W + 1 / 2 < n + 1) :
    p_spec_round W = le_bytes (W / 8) (odd n) := by
  have hfl : round ((approximate_e 34 - 2) * 2 ^ W) = (n : ℤ) := by
    rw [round_eq]
    exact Int.floor_eq_iff.mpr ⟨by exact_mod_cast h1, by push_cast; exact h2⟩
  rw [p_spec_round, hfl, Int.toNat_natCast]

theorem from_slice_to_le_bytes {N : Nat} (h : N ≤ 16) (v : Nat) :
    from_slice N (to_le_bytes v) = le_bytes N v := by
  rw [from_slice, to_le_bytes, le_bytes, List.length_map, List.length_range,
    ← List.map_take, List.take_range]
  have h1 : min N 16 = N := by omega
  have h2 : N - 16 = 0 := by omega
  rw [h1, h2]
  simp

/-! ### The claims -/

/-- C1: For every configuration (word bit size `W = 8 * L` a multiple of 8,
round count `R ≥ 0`, key length `K ≥ 0`, with the derived parameters
`KEY_AS_WORDS_LEN = max(ceil(K / L), 1)` and
`EXPANDED_KEY_TABLE_LEN = 2 * (R + 1)` consistent), every key of length `K`
and every block of length `2 * W / 8` bytes satisfy
`decrypt (encrypt p) = p` and `encrypt (decrypt p) = p` on the cipher
instance built by `new key`. -/
theorem c1_encrypt_decrypt_roundtrip
    (W L R K KAW T : Nat) (key block : List Nat) (S : List Word)
    (hW : W = 8 * L) (hL : 0 < L)
    (hK : key.length = K) (hKAW : KAW = max ((K + L - 1) / L) 1) (hT : T = 2 * (R + 1))
    (hkey : IsBytes key)
    (hnew : new W L KAW T key = some S)
    (hblock : block.length = 2 * L) (hbytes : IsBytes block) :
    decrypt L R S (encrypt L R S block) = block ∧
      encrypt L R S (decrypt L R S block) = block := by
  have ht : ∀ w ∈ S, GoodWord L w := expand_key_good hkey hnew
  exact ⟨decrypt_encrypt ht hblock hbytes, encrypt_decrypt ht hblock hbytes⟩

theorem expand_key_8_1_eval : new 8 1 1 4 [0] = some [[134], [213], [142], [129]] := by
  rw [new, expand_key,
    p_eval 183 8 (by rw [approximate_e_34_eq]; norm_num)
      (by rw [approximate_e_34_eq]; norm_num) (by norm_num) 1,
    q_eval 158 8 (by rw [approximate_golden_ratio_93_eq]; norm_num)
      (by rw [approximate_golden_ratio_93_eq]; norm_num) (by norm_num) 1]
  simp only [Option.some_bind]
  decide

/-- Witness for C1: the RC5-8/1/1 configuration with key `[0]` and block
`[5, 7]`. -/
theorem c1_encrypt_decrypt_roundtrip_witness :
    new 8 1 1 4 [0] = some [[134], [213], [142], [129]] ∧
      (decrypt 1 1 [[134], [213], [142], [129]]
          (encrypt 1 1 [[134], [213], [142], [129]] [5, 7]) = [5, 7] ∧
        encrypt 1 1 [[134], [213], [142], [129]]
          (decrypt 1 1 [[134], [213], [142], [129]] [5, 7]) = [5, 7]) :=
  ⟨expand_key_8_1_eval,
    c1_encrypt_decrypt_roundtrip 8 1 1 1 1 4 [0] [5, 7] [[134], [213], [142], [129]]
      (by norm_num) (by norm_num) rfl (by norm_num) (by norm_num) (by decide)
      expand_key_8_1_eval (by decide) (by decide)⟩

/-- C3: for every rotation amount `n` applied to a Word of `L > 0` bytes
(`totalBits = 8 * L`): the normalization modulus is `totalBits` itself when
`totalBits` is a power of two and otherwise the largest power of two strictly
below `totalBits`; and whenever `n mod modulus = 0`, both `rotate_left` and
`rotate_right` return the input unchanged.  (The amount is normalized as
`n % rotate_modulus totalBits` inside `rotate` by definition.) -/
theorem c3_rotation_normalization (x : Word) (n : Nat) (hL : 0 < x.length) :
    (is_power_of_two (x.length * 8) = true →
      rotate_modulus (x.length * 8) = x.length * 8) ∧
    (is_power_of_two (x.length * 8) = false →
      (∃ k, rotate_modulus (x.length * 8) = 2 ^ k) ∧
        rotate_modulus (x.length * 8) < x.length * 8 ∧
        ∀ k, 2 ^ k < x.length * 8 → 2 ^ k ≤ rotate_modulus (x.length * 8)) ∧
    (n % rotate_modulus (x.length * 8) = 0 →
      rotate_left x n = x ∧ rotate_right x n = x) := by
  have hB : 0 < x.length * 8 := by omega
  refine ⟨rotate_modulus_of_pow2, fun h => ?_, fun h0 => ?_⟩
  · obtain ⟨hshape, _, hlt, hmax⟩ := rotate_modulus_not_pow2_spec hB h
    exact ⟨hshape, hlt, hmax⟩
  · exact ⟨by rw [rotate_left]; exact rotate_of_mod_zero _ h0,
      by rw [rotate_right]; exact rotate_of_mod_zero _ h0⟩

/-- Witness for C3: a 3-byte word (24 bits, not a power of two, modulus 16)
with rotation amount 32, whose normalized value is zero. -/
theorem c3_rotation_normalization_witness :
    0 < ([1, 2, 3] : Word).length ∧ 32 % rotate_modulus (([1, 2, 3] : Word).length * 8) = 0 ∧
      rotate_left [1, 2, 3] 32 = [1, 2, 3] ∧ rotate_right [1, 2, 3] 32 = [1, 2, 3] :=
  ⟨by decide, by decide,
    (c3_rotation_normalization [1, 2, 3] 32 (by decide)).2.2 (by decide)⟩

/-- C4: for every Word `x` of any byte length and every rotation amount `n`,
`rotate_right (rotate_left x n) n = x`. -/
theorem c4_rotate_inverse (x : Word) (n : Nat) (hx : IsBytes x) :
    rotate_right (rotate_left x n) n = x :=
  rotate_right_rotate_left hx n

/-- Witness for C4: a concrete 2-byte word rotated by 5. -/
theorem c4_rotate_inverse_witness :
    IsBytes [0xAB, 0xCD] ∧ rotate_right (rotate_left [0xAB, 0xCD] 5) 5 = [0xAB, 0xCD] :=
  ⟨by decide, c4_rotate_inverse [0xAB, 0xCD] 5 (by decide)⟩

/-- C5: for every pair of Words of the same byte length,
`wrapping_sub (wrapping_add a b) b = a`. -/
theorem c5_add_sub_inverse (a b : Word) (hlen : a.length = b.length)
    (ha : IsBytes a) (hb : IsBytes b) :
    wrapping_sub (wrapping_add a b) b = a :=
  wrapping_sub_wrapping_add hlen ha hb

/-- Witness for C5: concrete 2-byte words with a carry across bytes. -/
theorem c5_add_sub_inverse_witness :
    (([200, 3] : Word).length = ([100, 255] : Word).length ∧ IsBytes [200, 3] ∧
      IsBytes [100, 255]) ∧
      wrapping_sub (wrapping_add [200, 3] [100, 255]) [100, 255] = [200, 3] :=
  ⟨⟨by decide, by decide, by decide⟩,
    c5_add_sub_inverse [200, 3] [100, 255] (by decide) (by decide) (by decide)⟩

/-- C8: interpreting Words as little-endian unsigned integers,
`toInt (wrapping_add a b) = (toInt a + toInt b) mod 2^(8 L)`; the operation is
total (it is a function in this embedding) and signals no overflow. -/
theorem c8_wrapping_add_toInt (a b : Word) (hlen : a.length = b.length)
    (ha : IsBytes a) (hb : IsBytes b) :
    toInt (wrapping_add a b) = (toInt a + toInt b) % 2 ^ (8 * a.length) :=
  toInt_wrapping_add hlen ha hb

/-- Witness for C8: a wrapping case, `0xFFFF + 0x0001 = 0 mod 2^16`. -/
theorem c8_wrapping_add_toInt_witness :
    (([255, 255] : Word).length = ([1, 0] : Word).length ∧ IsBytes [255, 255] ∧
      IsBytes [1, 0]) ∧
      toInt (wrapping_add [255, 255] [1, 0]) =
        (toInt [255, 255] + toInt [1, 0]) % 2 ^ (8 * ([255, 255] : Word).length) :=
  ⟨⟨by decide, by decide, by decide⟩,
    c8_wrapping_add_toInt [255, 255] [1, 0] (by decide) (by decide) (by decide)⟩

/-- C9: construction (`new`) fails exactly when a magic-constant magnitude is
not representable as an unsigned 128-bit integer (the `to_u128` conversion of
`p` or `q` yields `none`), detected once at construction time; `encrypt` and
`decrypt` are total functions that always return a block of the correct
length for any correct-length input block. -/
theorem c9_failure_model (W L KAW T R : Nat) (key : List Nat) (hkey : IsBytes key) :
    (new W L KAW T key = none ↔
      rat_to_u128 ((approximate_e 34 - 2) * 2 ^ W) = none ∨
        rat_to_u128 ((approximate_golden_ratio 93 - 1) * 2 ^ W) = none) ∧
    ∀ (S : List Word) (block : List Nat), new W L KAW T key = some S →
      block.length = 2 * L → IsBytes block →
      (encrypt L R S block).length = 2 * L ∧ (decrypt L R S block).length = 2 * L := by
  constructor
  · rw [new, expand_key, p, q]
    cases hp : rat_to_u128 ((approximate_e 34 - 2) * 2 ^ W) <;>
      cases hq : rat_to_u128 ((approximate_golden_ratio 93 - 1) * 2 ^ W) <;>
      simp
  · intro S block hnew hblock hbytes
    have ht := expand_key_good hkey hnew
    exact ⟨length_encrypt ht hblock hbytes, length_decrypt ht hblock hbytes⟩

/-- Witness for C9 at the RC5-8/1/1 configuration. -/
theorem c9_failure_model_witness :
    IsBytes [0] ∧
      ((new 8 1 1 4 [0] = none ↔
        rat_to_u128 ((approximate_e 34 - 2) * 2 ^ 8) = none ∨
          rat_to_u128 ((approximate_golden_ratio 93 - 1) * 2 ^ 8) = none) ∧
      ∀ (S : List Word) (block : List Nat), new 8 1 1 4 [0] = some S →
        block.length = 2 * 1 → IsBytes block →
        (encrypt 1 1 S block).length = 2 * 1 ∧ (decrypt 1 1 S block).length = 2 * 1) :=
  ⟨by decide, c9_failure_model 8 1 1 4 1 [0] (by decide)⟩

/-- C10: the byte/bit-shift OR-accumulation loop of `rotate` implements the
exact bit-rotation permutation even though the extracted source value is not
masked to a single bit: for a nonzero normalized amount, `rotate_left` and
`rotate_right` equal the naive one-bit-at-a-time reference rotation, and bit
`j` of the output is bit `(j - n_normalized) mod 8L` of the input (written in
`Nat` arithmetic as `(j + (8L - n_normalized)) % 8L` for the left rotation,
and symmetrically for the right). -/
theorem c10_rotate_loop_refinement (x : Word) (n : Nat) (hx : IsBytes x)
    (hn : n % rotate_modulus (x.length * 8) ≠ 0) :
    rotate_left x n = ref_rotate x (n % rotate_modulus (x.length * 8)) ∧
    rotate_right x n = ref_rotate x (x.length * 8 - n % rotate_modulus (x.length * 8)) ∧
    ∀ j < x.length * 8,
      wTestBit (rotate_left x n) j =
        wTestBit x ((j + (x.length * 8 - n % rotate_modulus (x.length * 8))) %
          (x.length * 8)) ∧
      wTestBit (rotate_right x n) j =
        wTestBit x ((j + n % rotate_modulus (x.length * 8)) % (x.length * 8)) := by
  refine ⟨?_, ?_, fun j hj => ⟨wTestBit_rotate_left hx hn hj, wTestBit_rotate_right hx hn hj⟩⟩
  · apply word_eq_of_testBit (isBytes_rotate hx n _) (isBytes_ref_rotate x _)
      (by simp only [rotate_left, length_rotate, length_ref_rotate])
    intro j hj
    have hlen2 : (rotate x n rotate_left_dest_bit_idx).length = x.length := length_rotate x n _
    have hjx : j < x.length * 8 := by omega
    show wTestBit (rotate_left x n) j =
      wTestBit (ref_rotate x (n % rotate_modulus (x.length * 8))) j
    rw [wTestBit_rotate_left hx hn hjx, wTestBit_ref_rotate _ hjx]
  · apply word_eq_of_testBit (isBytes_rotate hx n _) (isBytes_ref_rotate x _)
      (by simp only [rotate_right, length_rotate, length_ref_rotate])
    intro j hj
    have hlen2 : (rotate x n rotate_right_dest_bit_idx).length = x.length := length_rotate x n _
    have hjx : j < x.length * 8 := by omega
    show wTestBit (rotate_right x n) j =
      wTestBit (ref_rotate x (x.length * 8 - n % rotate_modulus (x.length * 8))) j
    rw [wTestBit_rotate_right hx hn hjx, wTestBit_ref_rotate _ hjx]
    have hB : 0 < x.length * 8 := by omega
    have harr : x.length * 8 - (x.length * 8 - n % rotate_modulus (x.length * 8)) =
        n % rotate_modulus (x.length * 8) := by
      have h1 := rotate_modulus_le hB
      have h2 := rotate_modulus_pos hB
      have h3 : n % rotate_modulus (x.length * 8) < rotate_modulus (x.length * 8) :=
        Nat.mod_lt _ h2
      omega
    rw [harr]

/-- Witness for C10: the 24-bit rotation test vector of the repository,
whose normalized amount is `12520077 % 16 = 13`. -/
theorem c10_rotate_loop_refinement_witness :
    (IsBytes [0x8D, 0x0A, 0xBF] ∧
      12520077 % rotate_modulus (([0x8D, 0x0A, 0xBF] : Word).length * 8) ≠ 0) ∧
      rotate_left [0x8D, 0x0A, 0xBF] 12520077 =
        ref_rotate [0x8D, 0x0A, 0xBF]
          (12520077 % rotate_modulus (([0x8D, 0x0A, 0xBF] : Word).length * 8)) :=
  ⟨⟨by decide, by decide⟩,
    (c10_rotate_loop_refinement [0x8D, 0x0A, 0xBF] 12520077 (by decide) (by decide)).1⟩

set_option maxRecDepth 100000 in
/-- C2: RC5-32/12/16 with the ascending 16-byte key encrypts
`00112233 44556677` to `2DDC149B CF088B9E` on the instance built by `new`. -/
theorem c2_rc5_32_12_16_known_answer :
    Option.map (fun S => encrypt 4 12 S [0x00, 0x11, 0x22, 0x33, 0x44, 0x55, 0x66, 0x77])
      (new 32 4 4 26
        [0x00, 0x01, 0x02, 0x03, 0x04, 0x05, 0x06, 0x07,
          0x08, 0x09, 0x0A, 0x0B, 0x0C, 0x0D, 0x0E, 0x0F])
      = some [0x2D, 0xDC, 0x14, 0x9B, 0xCF, 0x08, 0x8B, 0x9E] := by
  rw [new, expand_key,
    p_eval 3084996962 32 (by rw [approximate_e_34_eq]; norm_num)
      (by rw [approximate_e_34_eq]; norm_num) (by norm_num) 4,
    q_eval 2654435769 32 (by rw [approximate_golden_ratio_93_eq]; norm_num)
      (by rw [approximate_golden_ratio_93_eq]; norm_num) (by norm_num) 4]
  simp only [Option.some_bind]
  decide

set_option maxRecDepth 100000 in
/-- C7: RC5-24/4/0 with the zero-length key (a valid degenerate
configuration with `KEY_AS_WORDS_LEN = max(ceil(0/3), 1) = 1`) encrypts
`000102030405` to `89CBDCC9525A`. -/
theorem c7_rc5_24_4_0_known_answer :
    Option.map (fun S => encrypt 3 4 S [0x00, 0x01, 0x02, 0x03, 0x04, 0x05])
      (new 24 3 1 10 [])
      = some [0x89, 0xCB, 0xDC, 0xC9, 0x52, 0x5A] := by
  rw [new, expand_key,
    p_eval 12050769 24 (by rw [approximate_e_34_eq]; norm_num)
      (by rw [approximate_e_34_eq]; norm_num) (by norm_num) 3,
    q_eval 10368889 24 (by rw [approximate_golden_ratio_93_eq]; norm_num)
      (by rw [approximate_golden_ratio_93_eq]; norm_num) (by norm_num) 3]
  simp only [Option.some_bind]
  decide

/-- Counterexample for C6: at the supported word bit size `W = 8` the code
emits `P = 0xB7` (`odd` of the truncated value 183), while
`odd(round((e - 2) * 2^8))` is `odd(184) = 185 = 0xB9`: the claim as stated
(with `round`) is false. -/
theorem c6_round_counterexample :
    8 ∈ supported_word_bit_sizes ∧ p 8 (8 / 8) = some [0xB7] ∧
      p_spec_round 8 = [0xB9] ∧ p 8 (8 / 8) ≠ some (p_spec_round 8) := by
  have hp : p 8 (8 / 8) = some [0xB7] := by
    rw [p_eval 183 8 (by rw [approximate_e_34_eq]; norm_num)
      (by rw [approximate_e_34_eq]; norm_num) (by norm_num) (8 / 8)]
    decide
  have hs : p_spec_round 8 = [0xB9] := by
    rw [p_spec_round_eval 184 8 (by rw [approximate_e_34_eq]; norm_num)
      (by rw [approximate_e_34_eq]; norm_num)]
    decide
  refine ⟨by decide, hp, hs, ?_⟩
  rw [hp, hs]
  decide

/-- C6 (amended): for every supported word bit size `W`, the magic constant
`P` equals `odd` of the exact rational `(e - 2) * 2^W` truncated toward zero
(not rounded to nearest), where `e` is the 34-term partial sum of `1/k!`,
emitted as `W/8` little-endian bytes. -/
theorem c6_p_constant_trunc :
    ∀ W ∈ supported_word_bit_sizes, p W (W / 8) = some (p_spec_trunc W) := by
  intro W hW
  simp only [supported_word_bit_sizes, List.mem_cons, List.not_mem_nil, or_false] at hW
  rcases hW with rfl | rfl | rfl | rfl | rfl | rfl | rfl | rfl | rfl | rfl | rfl | rfl | rfl | rfl | rfl | rfl
  · rw [p_eval 183 8 (by rw [approximate_e_34_eq]; norm_num)
      (by rw [approximate_e_34_eq]; norm_num) (by norm_num) (8 / 8),
      p_spec_trunc_eval 183 8 (by rw [approximate_e_34_eq]; norm_num)
      (by rw [approximate_e_34_eq]; norm_num),
      from_slice_to_le_bytes (by norm_num)]
  · rw [p_eval 47073 16 (by rw [approximate_e_34_eq]; norm_num)
      (by rw [approximate_e_34_eq]; norm_num) (by norm_num) (16 / 8),
      p_spec_trunc_eval 47073 16 (by rw [approximate_e_34_eq]; norm_num)
      (by rw [approximate_e_34_eq]; norm_num),
      from_slice_to_le_bytes (by norm_num)]
  · rw [p_eval 12050769 24 (by rw [approximate_e_34_eq]; norm_num)
      (by rw [approximate_e_34_eq]; norm_num) (by norm_num) (24 / 8),
      p_spec_trunc_eval 12050769 24 (by rw [approximate_e_34_eq]; norm_num)
      (by rw [approximate_e_34_eq]; norm_num),
      from_slice_to_le_bytes (by norm_num)]
  · rw [p_eval 3084996962 32 (by rw [approximate_e_34_eq]; norm_num)
      (by rw [approximate_e_34_eq]; norm_num) (by norm_num) (32 / 8),
      p_spec_trunc_eval 3084996962 32 (by rw [approximate_e_34_eq]; norm_num)
      (by rw [approximate_e_34_eq]; norm_num),
      from_slice_to_le_bytes (by norm_num)]
  · rw [p_eval 789759222410 40 (by rw [approximate_e_34_eq]; norm_num)
      (by rw [approximate_e_34_eq]; norm_num) (by norm_num) (40 / 8),
      p_spec_trunc_eval 789759222410 40 (by rw [approximate_e_34_eq]; norm_num)
      (by rw [approximate_e_34_eq]; norm_num),
      from_slice_to_le_bytes (by norm_num)]
  · rw [p_eval 202178360937197 48 (by rw [approximate_e_34_eq]; norm_num)
      (by rw [approximate_e_34_eq]; norm_num) (by norm_num) (48 / 8),
      p_spec_trunc_eval 202178360937197 48 (by rw [approximate_e_34_eq]; norm_num)
      (by rw [approximate_e_34_eq]; norm_num),
      from_slice_to_le_bytes (by norm_num)]
  · rw [p_eval 51757660399922474 56 (by rw [approximate_e_34_eq]; norm_num)
      (by rw [approximate_e_34_eq]; norm_num) (by norm_num) (56 / 8),
      p_spec_trunc_eval 51757660399922474 56 (by rw [approximate_e_34_eq]; norm_num)
      (by rw [approximate_e_34_eq]; norm_num),
      from_slice_to_le_bytes (by norm_num)]
  · rw [p_eval 13249961062380153450 64 (by rw [approximate_e_34_eq]; norm_num)
      (by rw [approximate_e_34_eq]; norm_num) (by norm_num) (64 / 8),
      p_spec_trunc_eval 13249961062380153450 64 (by rw [approximate_e_34_eq]; norm_num)
      (by rw [approximate_e_34_eq]; norm_num),
      from_slice_to_le_bytes (by norm_num)]
  · rw [p_eval 3391990031969319283391 72 (by rw [approximate_e_34_eq]; norm_num)
      (by rw [approximate_e_34_eq]; norm_num) (by norm_num) (72 / 8),
      p_spec_trunc_eval 3391990031969319283391 72 (by rw [approximate_e_34_eq]; norm_num)
      (by rw [approximate_e_34_eq]; norm_num),
      from_slice_to_le_bytes (by norm_num)]
  · rw [p_eval 868349448184145736548209 80 (by rw [approximate_e_34_eq]; norm_num)
      (by rw [approximate_e_34_eq]; norm_num) (by norm_num) (80 / 8),
      p_spec_trunc_eval 868349448184145736548209 80 (by rw [approximate_e_34_eq]; norm_num)
      (by rw [approximate_e_34_eq]; norm_num),
      from_slice_to_le_bytes (by norm_num)]
  · rw [p_eval 222297458735141308556341592 88 (by rw [approximate_e_34_eq]; norm_num)
      (by rw [approximate_e_34_eq]; norm_num) (by norm_num) (88 / 8),
      p_spec_trunc_eval 222297458735141308556341592 88 (by rw [approximate_e_34_eq]; norm_num)
      (by rw [approximate_e_34_eq]; norm_num),
      from_slice_to_le_bytes (by norm_num)]
  · rw [p_eval 56908149436196174990423447680 96 (by rw [approximate_e_34_eq]; norm_num)
      (by rw [approximate_e_34_eq]; norm_num) (by norm_num) (96 / 8),
      p_spec_trunc_eval 56908149436196174990423447680 96 (by rw [approximate_e_34_eq]; norm_num)
      (by rw [approximate_e_34_eq]; norm_num),
      from_slice_to_le_bytes (by norm_num)]
  · rw [p_eval 14568486255666220797548402606236 104 (by rw [approximate_e_34_eq]; norm_num)
      (by rw [approximate_e_34_eq]; norm_num) (by norm_num) (104 / 8),
      p_spec_trunc_eval 14568486255666220797548402606236 104 (by rw [approximate_e_34_eq]; norm_num)
      (by rw [approximate_e_34_eq]; norm_num),
      from_slice_to_le_bytes (by norm_num)]
  · rw [p_eval 3729532481450552524172391067196660 112 (by rw [approximate_e_34_eq]; norm_num)
      (by rw [approximate_e_34_eq]; norm_num) (by norm_num) (112 / 8),
      p_spec_trunc_eval 3729532481450552524172391067196660 112 (by rw [approximate_e_34_eq]; norm_num)
      (by rw [approximate_e_34_eq]; norm_num),
      from_slice_to_le_bytes (by norm_num)]
  · rw [p_eval 954760315251341446188132113202345203 120 (by rw [approximate_e_34_eq]; norm_num)
      (by rw [approximate_e_34_eq]; norm_num) (by norm_num) (120 / 8),
      p_spec_trunc_eval 954760315251341446188132113202345203 120 (by rw [approximate_e_34_eq]; norm_num)
      (by rw [approximate_e_34_eq]; norm_num),
      from_slice_to_le_bytes (by norm_num)]
  · rw [p_eval 244418640704343410224161820979800372166 128 (by rw [approximate_e_34_eq]; norm_num)
      (by rw [approximate_e_34_eq]; norm_num) (by norm_num) (128 / 8),
      p_spec_trunc_eval 244418640704343410224161820979800372166 128 (by rw [approximate_e_34_eq]; norm_num)
      (by rw [approximate_e_34_eq]; norm_num),
      from_slice_to_le_bytes (by norm_num)]

/-- Witness for C6 (amended) at `W = 32`: `P = B7E15163`. -/
theorem c6_p_constant_trunc_witness :
    32 ∈ supported_word_bit_sizes ∧ p 32 (32 / 8) = some (p_spec_trunc 32) :=
  ⟨by decide, c6_p_constant_trunc 32 (by decide)⟩

end RC5
